import Mathlib

/-!
# Streamlens: verification of the natural-language specification

A shallow embedding of the core pure logic of the Streamlens repository
(platform detection in `platforms.py`, the TTL cache in `cache.py`, format
selection in `extractor.py`, the subtitle parser in `transcript.py`, and the
batch orchestrator in `batch.py`), together with theorems settling the
specification claims about those components.

Conventions of the embedding:
* Python strings are modelled as `List Char` (`Str`); Python `None` as
  `Option.none`.
* Python dictionaries with a known field set are modelled as structures whose
  fields have type `Option (Option α)`: the outer `Option` is key presence,
  the inner one distinguishes `None` from an actual value (`POpt`).
* Python numbers appearing in format records are modelled as exact rationals
  `ℚ`; `float("inf")` sentinels become `⊤ : WithTop ℚ`.  Timestamps and the
  simulated clock are `ℚ` as well.
* Python `or`-chains over such values use Python truthiness (both `None` and
  `0` — and the empty string — are falsy); the embedding reproduces this.
* Fallible functions return `Except` / `Option` instead of raising.
-/

set_option maxHeartbeats 1000000

namespace Streamlens

abbrev Str := List Char

/-- `Option (Option α)` models a Python dict field: `none` = key absent,
`some none` = key present with value `None`, `some (some a)` = value `a`. -/
abbrev POpt (α : Type) := Option (Option α)

/-- `d.get(key)` with no default: an absent key yields Python `None`. -/
def pyGet {α : Type} (f : POpt α) : Option α := f.getD none

/-- `d.get(key, dflt)` with a non-`None` default. -/
def pyGetD {α : Type} (f : POpt α) (dflt : α) : Option α :=
  match f with
  | none => some dflt
  | some v => v

/-- Python truthiness filter for an optional number: `None` and `0` are falsy. -/
def truthyQ (v : Option ℚ) : Option ℚ :=
  match v with
  | some x => if x = 0 then none else some x
  | none => none

/-- Python truthiness filter for an optional integer. -/
def truthyZ (v : Option Int) : Option Int :=
  match v with
  | some x => if x = 0 then none else some x
  | none => none

/-- Python truthiness filter for an optional string: `None` and `""` are falsy. -/
def truthyS (v : Option Str) : Option Str :=
  match v with
  | some x => if x = [] then none else some x
  | none => none

/-! ## `cache.py` — `TTLCache`

The cache stores `(insertion_time, value)` pairs keyed by strings.  The wall
clock (`time.monotonic()`) is made an explicit argument of `set` and `get`, so
the embedding is a state machine over simulated time.  The Python dict is
modelled as an association list with at most one entry per key (`set`
replaces). -/

/-- State of `cache.TTLCache`: the TTL and the backing store `_store`
(key ↦ (insertion timestamp, value)). -/
structure TTLCache (V : Type) where
  ttl : ℚ
  store : List (Str × ℚ × V)

/-- `TTLCache._evict_expired`: drop entries with `now - ts ≥ ttl`. -/
def TTLCache.evict_expired {V : Type} (c : TTLCache V) (now : ℚ) : TTLCache V :=
  { c with store := c.store.filter (fun e => !(decide (now - e.2.1 ≥ c.ttl))) }

/-- `TTLCache.get`: evict expired entries, then look the key up.  Returns the
result together with the post-eviction state (the Python method mutates). -/
def TTLCache.get {V : Type} (c : TTLCache V) (now : ℚ) (key : Str) :
    Option V × TTLCache V :=
  let c' := c.evict_expired now
  (((c'.store.find? (fun e => e.1 = key)).map (fun e => e.2.2)), c')

/-- `TTLCache.set`: store the value with the current timestamp, replacing any
previous entry for the key (dict assignment). -/
def TTLCache.set {V : Type} (c : TTLCache V) (now : ℚ) (key : Str) (v : V) :
    TTLCache V :=
  { c with store := (key, now, v) :: c.store.filter (fun e => !(decide (e.1 = key))) }

theorem TTLCache.find_filter_ne {V : Type} (l : List (Str × ℚ × V)) (k : Str)
    (p : Str × ℚ × V → Bool) :
    ((l.filter (fun e => !(decide (e.1 = k)))).filter p).find? (fun e => e.1 = k) = none := by
  induction l with
  | nil => rfl
  | cons e t ih =>
    by_cases h : e.1 = k
    · simp [List.filter, h, ih]
    · simp only [List.filter, h, decide_eq_true_eq]
      by_cases hp : p e
      · simp [List.find?, hp, h, ih]
      · simp [hp, ih]

/-- Looking up a key right after `set` at time `T`: the value is returned
exactly while `now < T + ttl`. -/
theorem TTLCache.get_set {V : Type} (c : TTLCache V) (T now : ℚ) (k : Str) (v : V) :
    ((c.set T k v).get now k).1 = if now < T + c.ttl then some v else none := by
  unfold TTLCache.get TTLCache.set TTLCache.evict_expired
  simp only [List.filter]
  by_cases h : now - T ≥ c.ttl
  · have hlt : ¬ now < T + c.ttl := by push_neg; linarith
    simp only [ge_iff_le, h, decide_True, Bool.not_true, if_neg hlt]
    rw [TTLCache.find_filter_ne]
    rfl
  · have hlt : now < T + c.ttl := by push_neg at h; linarith
    simp [h, hlt, List.find?]

/-! ## `batch.py` — `batch_get_info`

The per-URL extraction (`extract_video_info`, a network operation) is a
parameter `outcome : α → Except Str β` of the model: `_extract_one` converts
its failure into a per-item failure record.  `asyncio.gather` over the list of
tasks returns the items in input (task-creation) order, so the batch body is a
`List.map`.  The input is `BatchInput` so that the "not a list" branch of the
validation is representable. -/

inductive BatchInput (α : Type) : Type where
  | ofList (urls : List α)
  | notList

/-- `batch.BatchResultItem` (payload type abstracted as `β`). -/
structure BatchResultItem (α β : Type) where
  url : α
  success : Bool
  data : Option β
  error : Option Str

/-- `batch.BatchResult`. -/
structure BatchResult (α β : Type) where
  total : Nat
  succeeded : Nat
  failed : Nat
  results : List (BatchResultItem α β)

/-- `batch._extract_one`: run the extraction, catching any exception and
turning it into a failure record. -/
def extract_one {α β : Type} (outcome : α → Except Str β) (url : α) :
    BatchResultItem α β :=
  match outcome url with
  | .ok info => ⟨url, true, some info, none⟩
  | .error e => ⟨url, false, none, some e⟩

/-- `batch.batch_get_info`: input-shape validation (raising `BatchError`
before any extraction work), then per-URL extraction with per-item error
capture, then aggregation. -/
def batch_get_info {α β : Type} (outcome : α → Except Str β)
    (inp : BatchInput α) : Except Str (BatchResult α β) :=
  match inp with
  | .notList => .error ("urls must be a non-empty list".data)
  | .ofList urls =>
    if urls.isEmpty then .error ("urls must be a non-empty list".data)
    else if urls.length > 10 then .error ("Maximum 10 URLs per batch".data)
    else
      let items := urls.map (extract_one outcome)
      let succeeded := (items.filter (fun i => i.success)).length
      .ok ⟨items.length, succeeded, items.length - succeeded, items⟩

/-- C2: after `set(k, v)` at time `T`, `get(k)` at time `now` returns `v`
exactly when `now < T + ttl` (so it returns `v` strictly before `T + ttl` and
absent from `T + ttl` on), and overwriting the key at `T'` resets its age: the
new value lives exactly until `T' + ttl`. -/
theorem claim_C2_cache_ttl {V : Type} (c : TTLCache V) (k : Str) (v v' : V)
    (T T' now : ℚ) :
    (((c.set T k v).get now k).1 = if now < T + c.ttl then some v else none) ∧
    ((((c.set T k v).set T' k v').get now k).1 =
      if now < T' + c.ttl then some v' else none) :=
  ⟨TTLCache.get_set c T now k v, TTLCache.get_set (c.set T k v) T' now k v'⟩

theorem batch_success_flag {α β : Type} (outcome : α → Except Str β) (u : α) :
    (extract_one outcome u).success = (outcome u).isOk := by
  unfold extract_one
  cases outcome u <;> rfl

theorem extract_one_url {α β : Type} (outcome : α → Except Str β) (u : α) :
    (extract_one outcome u).url = u := by
  unfold extract_one
  cases outcome u <;> rfl

/-- C4: `batch_get_info` fails (with `BatchError`, before any extraction work)
exactly when the input is not a list, empty, or longer than 10; otherwise it
returns `total = len(urls)`, the per-URL results in input order (each the
error-capturing extraction of its URL, so its success flag matches the
outcome), `succeeded` counting the successful outcomes and
`failed = total - succeeded`. -/
theorem claim_C4_batch {α β : Type} (outcome : α → Except Str β)
    (inp : BatchInput α) :
    ((∃ e, batch_get_info outcome inp = .error e) ↔
      inp = .notList ∨ inp = .ofList [] ∨
        ∃ urls, inp = .ofList urls ∧ urls.length > 10) ∧
    (∀ urls r, inp = .ofList urls → batch_get_info outcome inp = .ok r →
      r.total = urls.length ∧
      r.results = urls.map (extract_one outcome) ∧
      r.results.map (fun it => it.url) = urls ∧
      r.succeeded = (urls.filter (fun u => (outcome u).isOk)).length ∧
      r.failed = r.total - r.succeeded) := by
  constructor
  · constructor
    · rintro ⟨e, he⟩
      match inp with
      | .notList => exact Or.inl rfl
      | .ofList urls =>
        by_cases h0 : urls = []
        · exact Or.inr (Or.inl (by rw [h0]))
        · refine Or.inr (Or.inr ⟨urls, rfl, ?_⟩)
          by_cases hlen : urls.length > 10
          · exact hlen
          · exfalso
            have h0' : urls.isEmpty = false := by
              simpa [List.isEmpty_iff] using h0
            simp only [batch_get_info, h0', Bool.false_eq_true, if_false,
              if_neg hlen] at he
            exact Except.noConfusion he
    · rintro (h | h | ⟨urls, h, hlen⟩) <;> subst h
      · exact ⟨_, rfl⟩
      · exact ⟨_, rfl⟩
      · have h0 : urls ≠ [] := by
          intro h; subst h; simp at hlen
        have h0' : urls.isEmpty = false := by
          simpa [List.isEmpty_iff] using h0
        exact ⟨"Maximum 10 URLs per batch".data, by
          simp only [batch_get_info, h0', Bool.false_eq_true, if_false, if_pos hlen]⟩
  · rintro urls r rfl hok
    by_cases h0 : urls = []
    · subst h0; simp [batch_get_info] at hok
    · have h0' : urls.isEmpty = false := by
        simpa [List.isEmpty_iff] using h0
      by_cases hlen : urls.length > 10
      · simp [batch_get_info, h0', if_pos hlen] at hok
      · simp only [batch_get_info, h0', Bool.false_eq_true, if_false,
          if_neg hlen, Except.ok.injEq] at hok
        subst hok
        refine ⟨by simp, rfl, ?_, ?_, rfl⟩
        · have hid : ((fun it : BatchResultItem α β => it.url) ∘ extract_one outcome) = id :=
            funext (extract_one_url outcome)
          simp [List.map_map, hid]
        · simp only [List.filter_map]
          have hcomp : (fun i : BatchResultItem α β => i.success) ∘ extract_one outcome
              = fun u => (outcome u).isOk := by
            funext u
            simp [Function.comp, batch_success_flag]
          rw [hcomp]
          simp [List.length_map]

/-- Concrete extraction oracle for the C4 witness: "bad" fails, others succeed. -/
def wBatchOutcome : Str → Except Str Nat := fun u =>
  if u = "bad".data then .error "boom".data else .ok 1

def wBatchUrls : List Str := ["a".data, "bad".data, "c".data]

def wBatchR : BatchResult Str Nat :=
  ⟨3, 2, 1, wBatchUrls.map (extract_one wBatchOutcome)⟩

/-- Witness for C4 at a concrete three-URL batch with one failure. -/
theorem claim_C4_batch_witness :
    wBatchR.total = wBatchUrls.length ∧
    wBatchR.results.map (fun it => it.url) = wBatchUrls ∧
    wBatchR.succeeded = (wBatchUrls.filter (fun u => (wBatchOutcome u).isOk)).length ∧
    wBatchR.failed = wBatchR.total - wBatchR.succeeded := by
  have h := (claim_C4_batch wBatchOutcome (.ofList wBatchUrls)).2 wBatchUrls wBatchR
    rfl (by rfl)
  exact ⟨h.1, h.2.2.1, h.2.2.2.1, h.2.2.2.2⟩

/-! ## `extractor.py` — format selection

Raw yt-dlp format dicts are modelled by `RawFormat` (every field a `POpt`);
`models.VideoFormat` by `VideoFormat`.  The three selection loops of
`_select_formats` become `foldl`s with exactly the source's update conditions,
including the Python-truthiness `or`-chains over sizes and bitrates. -/

/-- A raw yt-dlp format dict, restricted to the keys the repository reads. -/
structure RawFormat where
  format_id : POpt Str := none
  ext : POpt Str := none
  resolution : POpt Str := none
  height : POpt Int := none
  width : POpt Int := none
  fps : POpt ℚ := none
  vcodec : POpt Str := none
  acodec : POpt Str := none
  filesize : POpt ℚ := none
  tbr : POpt ℚ := none
  abr : POpt ℚ := none
  url : POpt Str := none
  format_note : POpt Str := none
deriving DecidableEq

/-- `models.VideoFormat`. -/
structure VideoFormat where
  format_id : Str
  ext : Str
  resolution : Option Str
  height : Option Int
  width : Option Int
  fps : Option ℚ
  vcodec : Option Str
  acodec : Option Str
  filesize : Option ℚ
  tbr : Option ℚ
  url : Option Str
  format_note : Option Str
deriving DecidableEq

/-- `extractor._has_video`: `fmt.get("vcodec", "none") not in ("none", None)`. -/
def has_video (f : RawFormat) : Bool :=
  match pyGetD f.vcodec "none".data with
  | none => false
  | some s => decide (s ≠ "none".data)

/-- `extractor._has_audio`: `fmt.get("acodec", "none") not in ("none", None)`. -/
def has_audio (f : RawFormat) : Bool :=
  match pyGetD f.acodec "none".data with
  | none => false
  | some s => decide (s ≠ "none".data)

/-- `f.get("height") or 0` (Python `or`: `None` and `0` are falsy). -/
def heightKey (f : RawFormat) : Int := (truthyZ (pyGet f.height)).getD 0

/-- `f.get("filesize") or f.get("tbr") or float("inf")`. -/
def sizeKey (f : RawFormat) : WithTop ℚ :=
  match truthyQ (pyGet f.filesize) with
  | some v => (v : WithTop ℚ)
  | none =>
    match truthyQ (pyGet f.tbr) with
    | some v => (v : WithTop ℚ)
    | none => ⊤

/-- `f.get("abr") or f.get("tbr") or 0`. -/
def abrKey (f : RawFormat) : ℚ :=
  match truthyQ (pyGet f.abr) with
  | some v => v
  | none => (truthyQ (pyGet f.tbr)).getD 0

/-- The `best` loop of `_select_formats`:
`if best is None or h > (best.get("height") or 0): best = f`. -/
def pick_best_video (l : List RawFormat) : Option RawFormat :=
  l.foldl (fun best f =>
    match best with
    | none => some f
    | some b => if heightKey f > heightKey b then some f else some b) none

/-- Key of the currently held candidate, `d` when no candidate is held yet
(the `if smallest else float("inf")` / `if best_audio else 0` expressions). -/
def accKey {α β : Type} (key : α → β) (d : β) : Option α → β
  | some b => key b
  | none => d

/-- The `smallest` loop of `_select_formats` (`f_size` is the truthy
`filesize`/`tbr` chain, `s_size` the current candidate's, `inf` when none). -/
def pick_smallest_video (l : List RawFormat) : Option RawFormat :=
  l.foldl (fun sm f =>
    if sizeKey f < accKey sizeKey ⊤ sm then some f else sm) none

/-- The `best_audio` loop of `_select_formats` (note the `abr > best_abr`
comparison against `0` while no candidate is held). -/
def pick_best_audio (l : List RawFormat) : Option RawFormat :=
  l.foldl (fun ba f =>
    if abrKey f > accKey abrKey 0 ba then some f else ba) none

/-- `extractor._build_format_entry`: drops the format when `format_id` or
`ext` is falsy; recomputes `resolution` from truthy width/height. -/
def build_format_entry (f : RawFormat) : Option VideoFormat :=
  match truthyS (pyGet f.format_id), truthyS (pyGet f.ext) with
  | some fid, some ext =>
    let resolution :=
      match truthyS (pyGet f.resolution) with
      | some r => some r
      | none =>
        match truthyZ (pyGet f.width), truthyZ (pyGet f.height) with
        | some w, some h => some ((toString w).data ++ "x".data ++ (toString h).data)
        | _, _ => none
    some ⟨fid, ext, resolution, pyGet f.height, pyGet f.width, pyGet f.fps,
      pyGet f.vcodec, pyGet f.acodec, pyGet f.filesize, pyGet f.tbr,
      pyGet f.url, pyGet f.format_note⟩
  | _, _ => none

/-- `extractor._select_formats`.  A selected dict is never the empty dict
(it passed `_has_video`/`_has_audio`), so Python's
`_build_format_entry(best) if best else None` is `Option.bind`. -/
def select_formats (formats : List RawFormat) :
    Option VideoFormat × Option VideoFormat × Option VideoFormat :=
  let video_fmts := formats.filter has_video
  let audio_only_fmts := formats.filter (fun f => has_audio f && !has_video f)
  ((pick_best_video video_fmts).bind build_format_entry,
   (pick_smallest_video video_fmts).bind build_format_entry,
   (pick_best_audio audio_only_fmts).bind build_format_entry)

/-! Specification-style selectors.  `firstMaxD key d` is "the first-seen
element with maximal key, among those with key above `d`"; `firstMinD key d`
dually.  These are the reference points the selection loops are compared
against. -/

def firstMaxD {α β : Type} [LinearOrder β] (key : α → β) (d : β) : List α → Option α
  | [] => none
  | f :: l =>
    match firstMaxD key d l with
    | none => if key f > d then some f else none
    | some m => if key m > key f then some m else some f

def firstMinD {α β : Type} [LinearOrder β] (key : α → β) (d : β) : List α → Option α
  | [] => none
  | f :: l =>
    match firstMinD key d l with
    | none => if key f < d then some f else none
    | some m => if key m < key f then some m else some f

theorem firstMaxD_some_gt {α β : Type} [LinearOrder β] (key : α → β) (d : β) :
    ∀ (l : List α) (m : α), firstMaxD key d l = some m → key m > d := by
  intro l
  induction l with
  | nil => intro m h; exact absurd h (by simp [firstMaxD])
  | cons f l ih =>
    intro m h
    rw [firstMaxD] at h
    rcases hM : firstMaxD key d l with _ | m'
    · rw [hM] at h
      dsimp only at h
      by_cases hf : key f > d
      · rw [if_pos hf] at h
        cases h; exact hf
      · rw [if_neg hf] at h
        exact absurd h (by simp)
    · rw [hM] at h
      dsimp only at h
      by_cases hc : key m' > key f
      · rw [if_pos hc] at h
        cases h; exact ih _ hM
      · rw [if_neg hc] at h
        cases h
        exact lt_of_lt_of_le (ih _ hM) (le_of_not_lt hc)

theorem firstMinD_some_lt {α β : Type} [LinearOrder β] (key : α → β) (d : β) :
    ∀ (l : List α) (m : α), firstMinD key d l = some m → key m < d := by
  intro l
  induction l with
  | nil => intro m h; exact absurd h (by simp [firstMinD])
  | cons f l ih =>
    intro m h
    rw [firstMinD] at h
    rcases hM : firstMinD key d l with _ | m'
    · rw [hM] at h
      dsimp only at h
      by_cases hf : key f < d
      · rw [if_pos hf] at h
        cases h; exact hf
      · rw [if_neg hf] at h
        exact absurd h (by simp)
    · rw [hM] at h
      dsimp only at h
      by_cases hc : key m' < key f
      · rw [if_pos hc] at h
        cases h; exact ih _ hM
      · rw [if_neg hc] at h
        cases h
        exact lt_of_le_of_lt (le_of_not_lt hc) (ih _ hM)

theorem foldl_pickMax {α β : Type} [LinearOrder β] (key : α → β) (d : β) :
    ∀ (l : List α) (acc : Option α), (∀ b, acc = some b → key b > d) →
      l.foldl (fun acc f =>
          if key f > accKey key d acc then some f else acc) acc
        = match acc, firstMaxD key d l with
          | none, r => r
          | some b, none => some b
          | some b, some m => if key m > key b then some m else some b := by
  intro l
  induction l with
  | nil => intro acc hacc; cases acc <;> simp [firstMaxD]
  | cons f l ih =>
    intro acc hacc
    rw [List.foldl_cons]
    cases acc with
    | none =>
      simp only [show accKey key d none = d from rfl]
      by_cases hf : key f > d
      · rw [if_pos hf, ih (some f) (by rintro b hb; cases hb; exact hf)]
        rcases hM : firstMaxD key d l with _ | m <;>
          simp [firstMaxD, hM, hf]
      · rw [if_neg hf, ih none (by rintro b hb; cases hb)]
        rcases hM : firstMaxD key d l with _ | m
        · simp [firstMaxD, hM, hf]
        · have hm : key m > key f :=
            lt_of_le_of_lt (le_of_not_lt hf) (firstMaxD_some_gt key d l m hM)
          simp [firstMaxD, hM, hm]
    | some b =>
      have hb : key b > d := hacc b rfl
      simp only [show accKey key d (some b) = key b from rfl]
      by_cases hfb : key f > key b
      · rw [if_pos hfb, ih (some f) (by rintro x hx; cases hx; exact lt_trans hb hfb)]
        rcases hM : firstMaxD key d l with _ | m
        · simp [firstMaxD, hM, lt_trans hb hfb, hfb]
        · by_cases hmf : key m > key f
          · simp [firstMaxD, hM, hmf, lt_trans hfb hmf]
          · simp [firstMaxD, hM, hmf, hfb]
      · rw [if_neg hfb, ih (some b) hacc]
        rcases hM : firstMaxD key d l with _ | m
        · by_cases hf : key f > d
          · simp [firstMaxD, hM, hf, hfb]
          · simp [firstMaxD, hM, hf]
        · by_cases hmf : key m > key f
          · simp [firstMaxD, hM, hmf]
          · have hmb : ¬ key m > key b :=
              not_lt.mpr (le_trans (le_of_not_lt hmf) (le_of_not_lt hfb))
            simp [firstMaxD, hM, hmf, hfb, hmb]

theorem foldl_pickMin {α β : Type} [LinearOrder β] (key : α → β) (d : β) :
    ∀ (l : List α) (acc : Option α), (∀ b, acc = some b → key b < d) →
      l.foldl (fun acc f =>
          if key f < accKey key d acc then some f else acc) acc
        = match acc, firstMinD key d l with
          | none, r => r
          | some b, none => some b
          | some b, some m => if key m < key b then some m else some b := by
  intro l
  induction l with
  | nil => intro acc hacc; cases acc <;> simp [firstMinD]
  | cons f l ih =>
    intro acc hacc
    rw [List.foldl_cons]
    cases acc with
    | none =>
      simp only [show accKey key d none = d from rfl]
      by_cases hf : key f < d
      · rw [if_pos hf, ih (some f) (by rintro b hb; cases hb; exact hf)]
        rcases hM : firstMinD key d l with _ | m <;>
          simp [firstMinD, hM, hf]
      · rw [if_neg hf, ih none (by rintro b hb; cases hb)]
        rcases hM : firstMinD key d l with _ | m
        · simp [firstMinD, hM, hf]
        · have hm : key m < key f :=
            lt_of_lt_of_le (firstMinD_some_lt key d l m hM) (le_of_not_lt hf)
          simp [firstMinD, hM, hm]
    | some b =>
      have hb : key b < d := hacc b rfl
      simp only [show accKey key d (some b) = key b from rfl]
      by_cases hfb : key f < key b
      · rw [if_pos hfb, ih (some f) (by rintro x hx; cases hx; exact lt_trans hfb hb)]
        rcases hM : firstMinD key d l with _ | m
        · simp [firstMinD, hM, lt_trans hfb hb, hfb]
        · by_cases hmf : key m < key f
          · simp [firstMinD, hM, hmf, lt_trans hmf hfb]
          · simp [firstMinD, hM, hmf, hfb]
      · rw [if_neg hfb, ih (some b) hacc]
        rcases hM : firstMinD key d l with _ | m
        · by_cases hf : key f < d
          · simp [firstMinD, hM, hf, hfb]
          · simp [firstMinD, hM, hf]
        · by_cases hmf : key m < key f
          · simp [firstMinD, hM, hmf]
          · have hmb : ¬ key m < key b :=
              not_lt.mpr (le_trans (le_of_not_lt hfb) (le_of_not_lt hmf))
            simp [firstMinD, hM, hmf, hfb, hmb]

theorem pick_smallest_video_eq (l : List RawFormat) :
    pick_smallest_video l = firstMinD sizeKey ⊤ l := by
  have h := foldl_pickMin sizeKey ⊤ l none (by rintro b hb; cases hb)
  unfold pick_smallest_video
  refine Eq.trans h ?_
  rcases firstMinD sizeKey ⊤ l <;> rfl

theorem pick_best_audio_eq (l : List RawFormat) :
    pick_best_audio l = firstMaxD abrKey 0 l := by
  have h := foldl_pickMax abrKey 0 l none (by rintro b hb; cases hb)
  unfold pick_best_audio
  refine Eq.trans h ?_
  rcases firstMaxD abrKey 0 l <;> rfl

/-- `heightKey` viewed in `WithBot Int`: the "no candidate yet" state of the
best-video loop behaves as a `⊥` key. -/
def heightKeyB (f : RawFormat) : WithBot Int := (heightKey f : Int)

theorem pick_best_video_eq (l : List RawFormat) :
    pick_best_video l = firstMaxD heightKeyB ⊥ l := by
  have hstep : (fun (best : Option RawFormat) (f : RawFormat) =>
      match best with
      | none => some f
      | some b => if heightKey f > heightKey b then some f else some b)
      = (fun acc f =>
          if heightKeyB f > accKey heightKeyB ⊥ acc then some f else acc) := by
    funext acc f
    match acc with
    | none => simp [heightKeyB, accKey]
    | some b =>
      by_cases h : heightKey f > heightKey b
      · simp [h, heightKeyB, accKey, WithBot.coe_lt_coe]
      · simp [h, heightKeyB, accKey, WithBot.coe_lt_coe]
  have h := foldl_pickMax heightKeyB ⊥ l none (by rintro b hb; cases hb)
  unfold pick_best_video
  rw [hstep]
  refine Eq.trans h ?_
  rcases firstMaxD heightKeyB ⊥ l <;> rfl

theorem firstMaxD_some_mem {α β : Type} [LinearOrder β] (key : α → β) (d : β) :
    ∀ (l : List α) (m : α), firstMaxD key d l = some m → m ∈ l := by
  intro l
  induction l with
  | nil => intro m h; exact absurd h (by simp [firstMaxD])
  | cons f l ih =>
    intro m h
    rw [firstMaxD] at h
    rcases hM : firstMaxD key d l with _ | m'
    · rw [hM] at h
      dsimp only at h
      split at h
      · cases h; exact List.mem_cons_self _ _
      · exact Option.noConfusion h
    · rw [hM] at h
      dsimp only at h
      split at h
      · cases h; exact List.mem_cons_of_mem f (ih _ hM)
      · cases h; exact List.mem_cons_self _ _

theorem firstMinD_some_mem {α β : Type} [LinearOrder β] (key : α → β) (d : β) :
    ∀ (l : List α) (m : α), firstMinD key d l = some m → m ∈ l := by
  intro l
  induction l with
  | nil => intro m h; exact absurd h (by simp [firstMinD])
  | cons f l ih =>
    intro m h
    rw [firstMinD] at h
    rcases hM : firstMinD key d l with _ | m'
    · rw [hM] at h
      dsimp only at h
      split at h
      · cases h; exact List.mem_cons_self _ _
      · exact Option.noConfusion h
    · rw [hM] at h
      dsimp only at h
      split at h
      · cases h; exact List.mem_cons_of_mem f (ih _ hM)
      · cases h; exact List.mem_cons_self _ _

theorem firstMaxD_none_iff {α β : Type} [LinearOrder β] (key : α → β) (d : β) :
    ∀ l : List α, firstMaxD key d l = none ↔ ∀ g ∈ l, key g ≤ d := by
  intro l
  induction l with
  | nil => simp [firstMaxD]
  | cons f l ih =>
    rw [firstMaxD]
    rcases hM : firstMaxD key d l with _ | m
    · dsimp only
      constructor
      · intro h g hg
        rcases List.mem_cons.mp hg with rfl | hg'
        · by_contra hc
          rw [if_pos (lt_of_not_le hc)] at h
          exact Option.noConfusion h
        · exact (ih.mp hM) g hg'
      · intro h
        rw [if_neg (not_lt.mpr (h f (List.mem_cons_self f l)))]
    · dsimp only
      constructor
      · intro h
        split at h <;> exact Option.noConfusion h
      · intro h
        exact absurd (h m (List.mem_cons_of_mem f (firstMaxD_some_mem key d l m hM)))
          (not_le.mpr (firstMaxD_some_gt key d l m hM))

theorem firstMinD_none_iff {α β : Type} [LinearOrder β] (key : α → β) (d : β) :
    ∀ l : List α, firstMinD key d l = none ↔ ∀ g ∈ l, d ≤ key g := by
  intro l
  induction l with
  | nil => simp [firstMinD]
  | cons f l ih =>
    rw [firstMinD]
    rcases hM : firstMinD key d l with _ | m
    · dsimp only
      constructor
      · intro h g hg
        rcases List.mem_cons.mp hg with rfl | hg'
        · by_contra hc
          rw [if_pos (lt_of_not_le hc)] at h
          exact Option.noConfusion h
        · exact (ih.mp hM) g hg'
      · intro h
        rw [if_neg (not_lt.mpr (h f (List.mem_cons_self f l)))]
    · dsimp only
      constructor
      · intro h
        split at h <;> exact Option.noConfusion h
      · intro h
        exact absurd (h m (List.mem_cons_of_mem f (firstMinD_some_mem key d l m hM)))
          (not_le.mpr (firstMinD_some_lt key d l m hM))

theorem firstMaxD_split {α β : Type} [LinearOrder β] (key : α → β) (d : β) :
    ∀ (l : List α) (b : α), firstMaxD key d l = some b →
      ∃ l1 l2, l = l1 ++ b :: l2 ∧ key b > d ∧
        (∀ g ∈ l1, key g < key b) ∧ (∀ g ∈ l2, key g ≤ key b) := by
  intro l
  induction l with
  | nil => intro b h; exact absurd h (by simp [firstMaxD])
  | cons f l ih =>
    intro b h
    rw [firstMaxD] at h
    rcases hM : firstMaxD key d l with _ | m
    · rw [hM] at h
      dsimp only at h
      split at h
      · cases h
        refine ⟨[], l, rfl, by assumption, by simp, ?_⟩
        intro g hg
        exact le_trans ((firstMaxD_none_iff key d l).mp hM g hg)
          (le_of_lt (by assumption))
      · exact Option.noConfusion h
    · rw [hM] at h
      dsimp only at h
      obtain ⟨l1, l2, hsplit, hgt, hbefore, hafter⟩ := ih m hM
      split at h
      · cases h
        rename_i hmf
        exact ⟨f :: l1, l2, by rw [hsplit]; rfl, hgt,
          by
            intro g hg
            rcases List.mem_cons.mp hg with rfl | hg'
            · exact hmf
            · exact hbefore g hg',
          hafter⟩
      · cases h
        rename_i hmf
        have hfm : key m ≤ key f := le_of_not_lt hmf
        refine ⟨[], l, rfl, lt_of_lt_of_le (firstMaxD_some_gt key d l m hM) hfm,
          by simp, ?_⟩
        intro g hg
        rw [hsplit] at hg
        rcases List.mem_append.mp hg with hg1 | hg2
        · exact le_trans (le_of_lt (hbefore g hg1)) hfm
        · rcases List.mem_cons.mp hg2 with rfl | hg3
          · exact hfm
          · exact le_trans (hafter g hg3) hfm

theorem firstMinD_split {α β : Type} [LinearOrder β] (key : α → β) (d : β) :
    ∀ (l : List α) (b : α), firstMinD key d l = some b →
      ∃ l1 l2, l = l1 ++ b :: l2 ∧ key b < d ∧
        (∀ g ∈ l1, key b < key g) ∧ (∀ g ∈ l2, key b ≤ key g) := by
  intro l
  induction l with
  | nil => intro b h; exact absurd h (by simp [firstMinD])
  | cons f l ih =>
    intro b h
    rw [firstMinD] at h
    rcases hM : firstMinD key d l with _ | m
    · rw [hM] at h
      dsimp only at h
      split at h
      · cases h
        refine ⟨[], l, rfl, by assumption, by simp, ?_⟩
        intro g hg
        exact le_trans (le_of_lt (by assumption))
          ((firstMinD_none_iff key d l).mp hM g hg)
      · exact Option.noConfusion h
    · rw [hM] at h
      dsimp only at h
      obtain ⟨l1, l2, hsplit, hlt, hbefore, hafter⟩ := ih m hM
      split at h
      · cases h
        rename_i hmf
        exact ⟨f :: l1, l2, by rw [hsplit]; rfl, hlt,
          by
            intro g hg
            rcases List.mem_cons.mp hg with rfl | hg'
            · exact hmf
            · exact hbefore g hg',
          hafter⟩
      · cases h
        rename_i hmf
        have hfm : key f ≤ key m := le_of_not_lt hmf
        refine ⟨[], l, rfl, lt_of_le_of_lt hfm (firstMinD_some_lt key d l m hM),
          by simp, ?_⟩
        intro g hg
        rw [hsplit] at hg
        rcases List.mem_append.mp hg with hg1 | hg2
        · exact le_trans hfm (le_of_lt (hbefore g hg1))
        · rcases List.mem_cons.mp hg2 with rfl | hg3
          · exact hfm
          · exact le_trans hfm (hafter g hg3)

/-- The size key exactly as claim C1 words it: filesize when present, falling
back to tbr when filesize is absent, `+inf` when both are absent (key
*presence*, not Python truthiness — this is where the claim and the code
part ways). -/
def specSizeKey (f : RawFormat) : WithTop ℚ :=
  match pyGet f.filesize with
  | some v => (v : WithTop ℚ)
  | none =>
    match pyGet f.tbr with
    | some v => (v : WithTop ℚ)
    | none => ⊤

/-- Plain first-seen argmin by a key, with no guard: on a nonempty list it
always selects an element.  This is the claim's "argmin ... treating
fully-missing size as +infinity". -/
def firstArgminBy {α β : Type} [LinearOrder β] (key : α → β) : List α → Option α
  | [] => none
  | f :: l =>
    match firstArgminBy key l with
    | none => some f
    | some m => if key m < key f then some m else some f

/-- A has-video format with id and extension but no size information at all. -/
def cxVideoOnly : RawFormat :=
  { vcodec := some (some "avc1".data),
    format_id := some (some "137".data),
    ext := some (some "mp4".data) }

/-- Counterexample to C1 as stated: for the single has-video format with no
size data, the claim's smallest-video selection (argmin with fully-missing
size treated as `+inf`, hence defined on any nonempty list) picks that format,
but `_select_formats` returns `None` for `smallest_video`: its update
condition `f_size < s_size` is `inf < inf` and never fires. -/
theorem claim_C1_counterexample :
    (select_formats [cxVideoOnly]).2.1 = none ∧
    (firstArgminBy specSizeKey ([cxVideoOnly].filter has_video)).bind
      build_format_entry ≠ none := by
  constructor
  · rfl
  · decide

/-- C1 (amended): `_select_formats` equals, component-wise, the first-seen
argmax by Python-truthy height over has-video formats (`⊥` default, so any
nonempty has-video subset yields a winner), the first-seen argmin by the
truthy filesize/tbr/`inf` chain restricted to formats with a finite size key
(`None` when every has-video format has key `inf`), and the first-seen argmax
by the truthy abr/tbr/0 chain restricted to strictly positive keys (`None`
when every audio-only format has key 0); a winner lacking `format_id` or
`ext` is dropped by `_build_format_entry`; the empty list yields all-absent
with no error, and selection is a pure function of the list (deterministic). -/
theorem claim_C1_select_formats (formats : List RawFormat) :
    (select_formats formats =
      ((firstMaxD heightKeyB ⊥ (formats.filter has_video)).bind build_format_entry,
       (firstMinD sizeKey ⊤ (formats.filter has_video)).bind build_format_entry,
       (firstMaxD abrKey 0 (formats.filter
          (fun f => has_audio f && !has_video f))).bind build_format_entry)) ∧
    (select_formats [] = (none, none, none)) ∧
    (∀ b, firstMaxD heightKeyB ⊥ (formats.filter has_video) = some b →
      ∃ l1 l2, formats.filter has_video = l1 ++ b :: l2 ∧
        (∀ g ∈ l1, heightKey g < heightKey b) ∧
        (∀ g ∈ l2, heightKey g ≤ heightKey b)) ∧
    (∀ b, firstMinD sizeKey ⊤ (formats.filter has_video) = some b →
      sizeKey b < ⊤ ∧
      ∃ l1 l2, formats.filter has_video = l1 ++ b :: l2 ∧
        (∀ g ∈ l1, sizeKey b < sizeKey g) ∧
        (∀ g ∈ l2, sizeKey b ≤ sizeKey g)) ∧
    (firstMinD sizeKey ⊤ (formats.filter has_video) = none ↔
      ∀ g ∈ formats.filter has_video, sizeKey g = ⊤) ∧
    (∀ b, firstMaxD abrKey 0
        (formats.filter (fun f => has_audio f && !has_video f)) = some b →
      0 < abrKey b ∧
      ∃ l1 l2, formats.filter (fun f => has_audio f && !has_video f)
          = l1 ++ b :: l2 ∧
        (∀ g ∈ l1, abrKey g < abrKey b) ∧
        (∀ g ∈ l2, abrKey g ≤ abrKey b)) ∧
    (firstMaxD abrKey 0
        (formats.filter (fun f => has_audio f && !has_video f)) = none ↔
      ∀ g ∈ formats.filter (fun f => has_audio f && !has_video f),
        abrKey g ≤ 0) := by
  refine ⟨?_, rfl, ?_, ?_, ?_, ?_, ?_⟩
  · show (let video_fmts := List.filter has_video formats;
      let audio_only_fmts := List.filter (fun f => has_audio f && !has_video f) formats;
      ((pick_best_video video_fmts).bind build_format_entry,
        (pick_smallest_video video_fmts).bind build_format_entry,
        (pick_best_audio audio_only_fmts).bind build_format_entry)) = _
    simp only
    rw [pick_best_video_eq, pick_smallest_video_eq, pick_best_audio_eq]
  · intro b hb
    obtain ⟨l1, l2, hsplit, _, hbefore, hafter⟩ :=
      firstMaxD_split heightKeyB ⊥ _ b hb
    refine ⟨l1, l2, hsplit, ?_, ?_⟩
    · intro g hg
      exact WithBot.coe_lt_coe.mp (hbefore g hg)
    · intro g hg
      exact WithBot.coe_le_coe.mp (hafter g hg)
  · intro b hb
    obtain ⟨l1, l2, hsplit, hlt, hbefore, hafter⟩ :=
      firstMinD_split sizeKey ⊤ _ b hb
    exact ⟨hlt, l1, l2, hsplit, hbefore, hafter⟩
  · rw [firstMinD_none_iff]
    constructor
    · intro h g hg
      exact top_le_iff.mp (h g hg)
    · intro h g hg
      exact le_of_eq (h g hg).symm
  · intro b hb
    obtain ⟨l1, l2, hsplit, hgt, hbefore, hafter⟩ :=
      firstMaxD_split abrKey 0 _ b hb
    exact ⟨hgt, l1, l2, hsplit, hbefore, hafter⟩
  · exact firstMaxD_none_iff abrKey 0 _

/-- Two sized has-video formats for the C1 witness. -/
def wFmtA : RawFormat :=
  { vcodec := some (some "avc1".data),
    format_id := some (some "137".data),
    ext := some (some "mp4".data),
    filesize := some (some 100) }

def wFmtB : RawFormat :=
  { vcodec := some (some "vp9".data),
    format_id := some (some "248".data),
    ext := some (some "webm".data),
    filesize := some (some 50) }

/-- Witness for C1 at a concrete two-format list: the smallest-video
characterization applies to the 50-byte format. -/
theorem claim_C1_select_formats_witness :
    sizeKey wFmtB < ⊤ ∧
    ∃ l1 l2, [wFmtA, wFmtB].filter has_video = l1 ++ wFmtB :: l2 ∧
      (∀ g ∈ l1, sizeKey wFmtB < sizeKey g) ∧
      (∀ g ∈ l2, sizeKey wFmtB ≤ sizeKey g) :=
  (claim_C1_select_formats [wFmtA, wFmtB]).2.2.2.1 wFmtB (by decide)

/-! ## `extractor._select_best_audio` (the audio-url operation)

Python's stable `list.sort(key=...)` followed by `[0]` is modelled as
`List.mergeSort` (stable, per the core stability theorems) followed by
`head`. -/

/-- `extractor._EXT_PREFERENCE`. -/
def EXT_PREFERENCE : List Str := ["m4a".data, "opus".data, "mp3".data, "ogg".data]

/-- `_EXT_PREFERENCE.index(ext) if ext in _EXT_PREFERENCE else len(...)`,
where `ext = f.get("ext", "")`.  `List.indexOf` returns the length when the
element is absent, which is exactly this. -/
def extension_rank (f : RawFormat) : Nat :=
  match pyGetD f.ext [] with
  | some e => EXT_PREFERENCE.indexOf e
  | none => EXT_PREFERENCE.length

/-- Sort relation for quality "smallest": ascending
`f.get("filesize") or f.get("tbr") or float("inf")`. -/
def small_le (f g : RawFormat) : Bool := decide (sizeKey f ≤ sizeKey g)

/-- Sort relation for quality "best": the Python key `(-abr, ext_rank)`
compared lexicographically ascending. -/
def best_le (f g : RawFormat) : Bool :=
  decide (abrKey g < abrKey f ∨
    (abrKey f = abrKey g ∧ extension_rank f ≤ extension_rank g))

/-- Audio-url eligibility: has audio, lacks video, and exposes a truthy
direct stream URL (`f.get("url")`). -/
def audio_eligible (f : RawFormat) : Bool :=
  has_audio f && !has_video f && (truthyS (pyGet f.url)).isSome

theorem mergeSort_ne_nil {α : Type} (le : α → α → Bool) (l : List α)
    (h : l ≠ []) : l.mergeSort le ≠ [] := by
  intro hn
  apply h
  have hp := List.mergeSort_perm l le
  rw [hn] at hp
  exact hp.symm.eq_nil

/-- `extractor._select_best_audio`. -/
def select_best_audio (formats : List RawFormat) (quality : Str) :
    Except Str RawFormat :=
  let audio_fmts := formats.filter audio_eligible
  if h : audio_fmts = [] then
    .error "No audio-only formats available for this video".data
  else if quality = "smallest".data then
    .ok ((audio_fmts.mergeSort small_le).head (mergeSort_ne_nil small_le audio_fmts h))
  else
    .ok ((audio_fmts.mergeSort best_le).head (mergeSort_ne_nil best_le audio_fmts h))

/-- First-seen minimum with respect to a boolean total preorder: what the
head of a stable ascending sort is. -/
def firstMinWith {α : Type} (le : α → α → Bool) : List α → Option α
  | [] => none
  | a :: l =>
    match firstMinWith le l with
    | none => some a
    | some m => if le a m then some a else some m

theorem firstMinWith_none_iff {α : Type} (le : α → α → Bool) (l : List α) :
    firstMinWith le l = none ↔ l = [] := by
  cases l with
  | nil => simp [firstMinWith]
  | cons a l =>
    simp only [firstMinWith]
    constructor
    · intro h
      rcases hM : firstMinWith le l with _ | m <;> rw [hM] at h <;> dsimp only at h
      · exact Option.noConfusion h
      · split at h <;> exact Option.noConfusion h
    · intro h
      exact List.noConfusion h

/-- The head of a stable merge sort is the first-seen minimum. -/
theorem head?_mergeSort {α : Type} (le : α → α → Bool)
    (htrans : ∀ a b c, le a b → le b c → le a c)
    (htotal : ∀ a b, le a b || le b a) :
    ∀ l : List α, (l.mergeSort le).head? = firstMinWith le l := by
  intro l
  induction l with
  | nil => simp [firstMinWith]
  | cons a l ih =>
    obtain ⟨l1, l2, h1, h2, h3⟩ := List.mergeSort_cons htrans htotal a l
    rw [h1, firstMinWith, ← ih, h2]
    cases l1 with
    | nil =>
      simp only [List.nil_append]
      cases l2 with
      | nil => rfl
      | cons m l2' =>
        have hs := List.sorted_mergeSort htrans htotal (a :: l)
        rw [h1, List.nil_append] at hs
        have ham : le a m := List.rel_of_pairwise_cons hs (List.mem_cons_self m l2')
        simp [ham]
    | cons b l1' =>
      have hab : ¬ le a b := by
        have := h3 b (List.mem_cons_self b l1')
        simpa using this
      simp [hab]

/-- First-seen-minimum characterization: everything before the winner is
strictly above it (fails `le g b`), everything after is at or above it. -/
theorem firstMinWith_split {α : Type} (le : α → α → Bool)
    (htrans : ∀ a b c, le a b → le b c → le a c)
    (htotal : ∀ a b, le a b || le b a) :
    ∀ (l : List α) (b : α), firstMinWith le l = some b →
      ∃ l1 l2, l = l1 ++ b :: l2 ∧ (∀ g ∈ l1, le g b = false) ∧
        (∀ g ∈ l2, le b g = true) := by
  intro l
  induction l with
  | nil => intro b h; exact absurd h (by simp [firstMinWith])
  | cons a l ih =>
    intro b h
    rw [firstMinWith] at h
    rcases hM : firstMinWith le l with _ | m
    · rw [hM] at h
      dsimp only at h
      cases h
      have hl : l = [] := (firstMinWith_none_iff le l).mp hM
      subst hl
      exact ⟨[], [], rfl, by simp, by simp⟩
    · rw [hM] at h
      dsimp only at h
      obtain ⟨l1, l2, hsplit, hbefore, hafter⟩ := ih m hM
      split at h
      · cases h
        rename_i ham
        refine ⟨[], l, rfl, by simp, ?_⟩
        intro g hg
        rw [hsplit] at hg
        rcases List.mem_append.mp hg with hg1 | hg2
        · have hmg : le m g := by
            have := htotal g m
            rcases Bool.or_eq_true_iff.mp this with hgm | hmg
            · rw [hbefore g hg1] at hgm; exact Bool.noConfusion hgm
            · exact hmg
          exact htrans _ _ _ ham hmg
        · rcases List.mem_cons.mp hg2 with rfl | hg3
          · exact ham
          · exact htrans _ _ _ ham (hafter g hg3)
      · cases h
        rename_i ham
        refine ⟨a :: l1, l2, by rw [hsplit]; rfl, ?_, hafter⟩
        intro g hg
        rcases List.mem_cons.mp hg with rfl | hg'
        · exact Bool.eq_false_iff.mpr ham
        · exact hbefore g hg'

theorem small_le_trans : ∀ a b c, small_le a b → small_le b c → small_le a c := by
  intro a b c hab hbc
  simp only [small_le, decide_eq_true_eq] at hab hbc ⊢
  exact le_trans hab hbc

theorem small_le_total : ∀ a b, small_le a b || small_le b a := by
  intro a b
  simp only [small_le]
  rcases le_total (sizeKey a) (sizeKey b) with h | h <;> simp [h]

theorem best_le_trans : ∀ a b c, best_le a b → best_le b c → best_le a c := by
  intro a b c hab hbc
  simp only [best_le, decide_eq_true_eq] at hab hbc ⊢
  rcases hab with h1 | ⟨h1, h1r⟩ <;> rcases hbc with h2 | ⟨h2, h2r⟩
  · exact Or.inl (lt_trans h2 h1)
  · exact Or.inl (h2 ▸ h1)
  · exact Or.inl (by rw [h1]; exact h2)
  · exact Or.inr ⟨h1.trans h2, le_trans h1r h2r⟩

theorem best_le_total : ∀ a b, best_le a b || best_le b a := by
  intro a b
  simp only [best_le]
  rcases lt_trichotomy (abrKey a) (abrKey b) with h | h | h
  · simp [h]
  · rcases Nat.le_total (extension_rank a) (extension_rank b) with hr | hr
    · have hd : abrKey b < abrKey a ∨
          (abrKey a = abrKey b ∧ extension_rank a ≤ extension_rank b) :=
        Or.inr ⟨h, hr⟩
      simp [hd]
    · have hd : abrKey a < abrKey b ∨
          (abrKey b = abrKey a ∧ extension_rank b ≤ extension_rank a) :=
        Or.inr ⟨h.symm, hr⟩
      simp [hd]
  · simp [h]

theorem select_best_audio_ok_head (formats : List RawFormat) (q : Str)
    (r : RawFormat) (h : select_best_audio formats q = .ok r) :
    ∃ hne : formats.filter audio_eligible ≠ [],
      r = ((formats.filter audio_eligible).mergeSort
            (if q = "smallest".data then small_le else best_le)).head
          (mergeSort_ne_nil _ _ hne) := by
  unfold select_best_audio at h
  by_cases hnil : formats.filter audio_eligible = []
  · rw [dif_pos hnil] at h
    exact Except.noConfusion h
  · rw [dif_neg hnil] at h
    refine ⟨hnil, ?_⟩
    by_cases hq : q = "smallest".data
    · rw [if_pos hq] at h ⊢
      cases h; rfl
    · rw [if_neg hq] at h ⊢
      cases h; rfl

/-- C9: in the audio-url selection, a format is eligible exactly when it has
audio, lacks video and exposes a truthy direct stream URL; both quality modes
fail with `ExtractionError` exactly when no format is eligible; "smallest"
returns the first-seen eligible format minimizing the truthy filesize/tbr/inf
chain; "best" returns the first-seen eligible format maximal for the
lexicographic key (bitrate descending, then the fixed extension preference
m4a, opus, mp3, ogg, anything else), with earlier-listed formats winning all
exact ties. -/
theorem claim_C9_select_best_audio (formats : List RawFormat) :
    ((∃ e, select_best_audio formats "smallest".data = .error e) ↔
      formats.filter audio_eligible = []) ∧
    ((∃ e, select_best_audio formats "best".data = .error e) ↔
      formats.filter audio_eligible = []) ∧
    (∀ r, select_best_audio formats "smallest".data = .ok r →
      ∃ l1 l2, formats.filter audio_eligible = l1 ++ r :: l2 ∧
        (∀ g ∈ l1, sizeKey r < sizeKey g) ∧
        (∀ g ∈ l2, sizeKey r ≤ sizeKey g)) ∧
    (∀ r, select_best_audio formats "best".data = .ok r →
      ∃ l1 l2, formats.filter audio_eligible = l1 ++ r :: l2 ∧
        (∀ g ∈ l1, abrKey g < abrKey r ∨
          (abrKey g = abrKey r ∧ extension_rank r < extension_rank g)) ∧
        (∀ g ∈ l2, abrKey g < abrKey r ∨
          (abrKey r = abrKey g ∧ extension_rank r ≤ extension_rank g))) := by
  have herr : ∀ q : Str, (∃ e, select_best_audio formats q = .error e) ↔
      formats.filter audio_eligible = [] := by
    intro q
    constructor
    · rintro ⟨e, he⟩
      by_contra hnil
      unfold select_best_audio at he
      rw [dif_neg hnil] at he
      by_cases hq : q = "smallest".data
      · rw [if_pos hq] at he; exact Except.noConfusion he
      · rw [if_neg hq] at he; exact Except.noConfusion he
    · intro hnil
      refine ⟨"No audio-only formats available for this video".data, ?_⟩
      unfold select_best_audio
      rw [dif_pos hnil]
  refine ⟨herr _, herr _, ?_, ?_⟩
  · intro r hr
    obtain ⟨hne, hhead⟩ := select_best_audio_ok_head formats "smallest".data r hr
    rw [if_pos rfl] at hhead
    have hh : ((formats.filter audio_eligible).mergeSort small_le).head? = some r := by
      rw [List.head?_eq_head (mergeSort_ne_nil _ _ hne), hhead]
    rw [head?_mergeSort small_le small_le_trans small_le_total] at hh
    obtain ⟨l1, l2, hsplit, hbefore, hafter⟩ :=
      firstMinWith_split small_le small_le_trans small_le_total _ r hh
    refine ⟨l1, l2, hsplit, ?_, ?_⟩
    · intro g hg
      have := hbefore g hg
      simp only [small_le, decide_eq_false_iff_not, not_le] at this
      exact this
    · intro g hg
      have := hafter g hg
      simp only [small_le, decide_eq_true_eq] at this
      exact this
  · intro r hr
    obtain ⟨hne, hhead⟩ := select_best_audio_ok_head formats "best".data r hr
    rw [if_neg (by decide)] at hhead
    have hh : ((formats.filter audio_eligible).mergeSort best_le).head? = some r := by
      rw [List.head?_eq_head (mergeSort_ne_nil _ _ hne), hhead]
    rw [head?_mergeSort best_le best_le_trans best_le_total] at hh
    obtain ⟨l1, l2, hsplit, hbefore, hafter⟩ :=
      firstMinWith_split best_le best_le_trans best_le_total _ r hh
    refine ⟨l1, l2, hsplit, ?_, ?_⟩
    · intro g hg
      have := hbefore g hg
      simp only [best_le, decide_eq_false_iff_not, not_or, not_and, not_le] at this
      obtain ⟨h1, h2⟩ := this
      rcases lt_or_eq_of_le (le_of_not_lt h1) with hlt | heq
      · exact Or.inl hlt
      · exact Or.inr ⟨heq, h2 heq⟩
    · intro g hg
      have := hafter g hg
      simp only [best_le, decide_eq_true_eq] at this
      exact this

/-- An eligible audio format for the C9 witness. -/
def wAudioFmt : RawFormat :=
  { acodec := some (some "mp4a.40.2".data),
    format_id := some (some "140".data),
    ext := some (some "m4a".data),
    abr := some (some 128),
    url := some (some "https://cdn.example/audio".data) }

/-- Witness for C9: on a list whose only eligible format is `wAudioFmt`,
"best" mode selects it and the characterization holds. -/
theorem claim_C9_select_best_audio_witness :
    ∃ l1 l2, [cxVideoOnly, wAudioFmt].filter audio_eligible = l1 ++ wAudioFmt :: l2 ∧
      (∀ g ∈ l1, abrKey g < abrKey wAudioFmt ∨
        (abrKey g = abrKey wAudioFmt ∧
          extension_rank wAudioFmt < extension_rank g)) ∧
      (∀ g ∈ l2, abrKey g < abrKey wAudioFmt ∨
        (abrKey wAudioFmt = abrKey g ∧
          extension_rank wAudioFmt ≤ extension_rank g)) := by
  have hfil : [cxVideoOnly, wAudioFmt].filter audio_eligible = [wAudioFmt] := by decide
  refine (claim_C9_select_best_audio [cxVideoOnly, wAudioFmt]).2.2.2 wAudioFmt ?_
  unfold select_best_audio
  rw [dif_neg (by rw [hfil]; exact List.noConfusion)]
  rw [if_neg (by decide)]
  congr 1
  have hsing : ([cxVideoOnly, wAudioFmt].filter audio_eligible).mergeSort best_le
      = [wAudioFmt] := by
    rw [hfil, List.mergeSort]
  simp [hsing]

/-! ## `platforms.py` — URL pattern registry and platform detection

Each compiled regex of `_PLATFORM_PATTERNS` is embedded as a direct matcher
on `List Char` reproducing `re.search` semantics for its particular shape:

* the optional `(?:https?://)?(?:www\.)?` groups never constrain a search, so
  a pattern matches iff its first required literal occurs somewhere with a
  matching continuation; `search` picks the leftmost such occurrence
  (`searchWith`);
* `.*v=(...)` backtracks greedily: the *rightmost* `v=` whose capture
  succeeds, with `.` not crossing a newline (`greedyLastCap`);
* `[^/]+` / `[^?]+` cannot cross their forbidden character, so they are
  forced to the run up to the first `/` / `?`;
* `\d+` and `[a-zA-Z0-9_-]{11}` capture greedy digit runs / exactly 11
  id-characters. -/

/-- The regex class `[a-zA-Z0-9_-]`. -/
def idChar (c : Char) : Bool := c.isAlpha || c.isDigit || c = '_' || c = '-'

/-- The regex class `[a-zA-Z0-9]`. -/
def alnumChar (c : Char) : Bool := c.isAlpha || c.isDigit

/-- `re.search` for a pattern of shape `lit` + continuation: try every
position left to right; at each occurrence of `lit`, accept iff the
continuation matches there, otherwise keep scanning. -/
def searchWith {α : Type} (lit : Str) (cont : Str → Option α) : Str → Option α
  | [] => none
  | c :: rest =>
    if lit.isPrefixOf (c :: rest) then
      match cont ((c :: rest).drop lit.length) with
      | some a => some a
      | none => searchWith lit cont rest
    else searchWith lit cont rest

/-- Capture `(?P<id>[a-zA-Z0-9_-]{11})`. -/
def capId11 (rest : Str) : Option Str :=
  if (rest.take 11).length = 11 && (rest.take 11).all idChar
  then some (rest.take 11) else none

/-- Greedy `.*` + `pre` + capture: the rightmost occurrence of `pre` whose
capture succeeds, with no newline allowed before it (`.` excludes `\n`). -/
def greedyLastCap {α : Type} (pre : Str) (cap : Str → Option α) : Str → Option α
  | [] => none
  | c :: rs =>
    match (if c = '\n' then none else greedyLastCap pre cap rs) with
    | some r => some r
    | none =>
      if pre.isPrefixOf (c :: rs) then cap ((c :: rs).drop pre.length) else none

/-- Capture `(?P<id>\d+)` (greedy digit run, at least one digit). -/
def digitsRun (rest : Str) : Option Str :=
  if rest.takeWhile Char.isDigit = [] then none
  else some (rest.takeWhile Char.isDigit)

/-- `[a-zA-Z0-9]+` with no capture: at least one such character here. -/
def alnumHead (rest : Str) : Option Unit :=
  match rest with
  | c :: _ => if alnumChar c then some () else none
  | [] => none

/-- Continuation of the TikTok video pattern after `tiktok.com/@`:
`[^/]+` (forced to the run before the first `/`), then `/video/`, then
`\d+`. -/
def tiktokTail (rest : Str) : Option Str :=
  if rest.takeWhile (fun c => c ≠ '/') = [] then none
  else if ("/video/".data).isPrefixOf
      (rest.drop (rest.takeWhile (fun c => c ≠ '/')).length) then
    digitsRun (rest.drop ((rest.takeWhile (fun c => c ≠ '/')).length + 7))
  else none

/-- Continuation of the Douyin modal pattern after `douyin.com/user/`:
`[^?]+` (forced to the run before the first `?`), `\?`, then greedy
`.*modal_id=(\d+)`. -/
def douyinUserTail (rest : Str) : Option Str :=
  if rest.takeWhile (fun c => c ≠ '?') = [] then none
  else
    match rest.drop (rest.takeWhile (fun c => c ≠ '?')).length with
    | '?' :: r2 => greedyLastCap ("modal_id=".data) digitsRun r2
    | _ => none

inductive Platform : Type where
  | youtube
  | tiktok
  | douyin
deriving DecidableEq

structure URLValidationResult where
  platform : Platform
  canonical_url : Str
  video_id : Option Str
deriving DecidableEq

/-- The ten patterns, in registry order.  A matcher returns `none` for "no
match", `some v` for a match whose `group("id")` is `v` (`v = none` for the
two patterns without an id capture). -/
def patYtWatch (s : Str) : Option (Option Str) :=
  (searchWith "youtube.com/watch?".data (greedyLastCap "v=".data capId11) s).map some

def patYtShort (s : Str) : Option (Option Str) :=
  (searchWith "youtu.be/".data capId11 s).map some

def patYtShorts (s : Str) : Option (Option Str) :=
  (searchWith "youtube.com/shorts/".data capId11 s).map some

def patYtEmbed (s : Str) : Option (Option Str) :=
  (searchWith "youtube.com/embed/".data capId11 s).map some

def patYtMobile (s : Str) : Option (Option Str) :=
  (searchWith "m.youtube.com/watch?".data (greedyLastCap "v=".data capId11) s).map some

def patTiktokVideo (s : Str) : Option (Option Str) :=
  (searchWith "tiktok.com/@".data tiktokTail s).map some

def patTiktokShort (s : Str) : Option (Option Str) :=
  (searchWith "vm.tiktok.com/".data alnumHead s).map (fun _ => none)

def patDouyinVideo (s : Str) : Option (Option Str) :=
  (searchWith "douyin.com/video/".data digitsRun s).map some

def patDouyinUser (s : Str) : Option (Option Str) :=
  (searchWith "douyin.com/user/".data douyinUserTail s).map some

def patDouyinShort (s : Str) : Option (Option Str) :=
  (searchWith "v.douyin.com/".data alnumHead s).map (fun _ => none)

/-- `platforms._PLATFORM_PATTERNS`, in order. -/
def PLATFORM_PATTERNS : List (Platform × (Str → Option (Option Str))) :=
  [(.youtube, patYtWatch), (.youtube, patYtShort), (.youtube, patYtShorts),
   (.youtube, patYtEmbed), (.youtube, patYtMobile),
   (.tiktok, patTiktokVideo), (.tiktok, patTiktokShort),
   (.douyin, patDouyinVideo), (.douyin, patDouyinUser), (.douyin, patDouyinShort)]

/-- The canonicalization branch of `detect_platform`: YouTube always
rebuilds the watch URL (f-string over the id), Douyin rebuilds only for a
truthy id, everything else keeps the stripped input. -/
def canonical_for (plat : Platform) (vid : Option Str) (stripped : Str) : Str :=
  match plat, vid with
  | .youtube, v =>
    "https://www.youtube.com/watch?v=".data ++ (v.getD "None".data)
  | .douyin, some i =>
    if i = [] then stripped else "https://www.douyin.com/video/".data ++ i
  | _, _ => stripped

/-- The pattern loop of `detect_platform`: first match wins. -/
def detectFromPatterns :
    List (Platform × (Str → Option (Option Str))) → Str → Option URLValidationResult
  | [], _ => none
  | (plat, pat) :: rest, s =>
    match pat s with
    | some vid => some ⟨plat, canonical_for plat vid s, vid⟩
    | none => detectFromPatterns rest s

/-- Input of `detect_platform`: a string, or a non-string value (the
`isinstance` check). -/
inductive URLInput : Type where
  | ofStr (s : Str)
  | nonString

/-- Python `str.strip()` (over the core whitespace characters). -/
def pyStrip (s : Str) : Str :=
  ((s.dropWhile Char.isWhitespace).reverse.dropWhile Char.isWhitespace).reverse

/-- `platforms.detect_platform`. -/
def detect_platform (u : URLInput) : Except Str URLValidationResult :=
  match u with
  | .nonString => .error "URL must be a non-empty string".data
  | .ofStr s =>
    if pyStrip s = [] then .error "URL must be a non-empty string".data
    else
      match detectFromPatterns PLATFORM_PATTERNS (pyStrip s) with
      | some r => .ok r
      | none => .error ("Unsupported or invalid URL: ".data ++ pyStrip s)

theorem searchWith_some_from_cont {α : Type} (lit : Str) (cont : Str → Option α) :
    ∀ (l : Str) (a : α), searchWith lit cont l = some a → ∃ rest, cont rest = some a := by
  intro l
  induction l with
  | nil => intro a h; exact absurd h (by simp [searchWith])
  | cons c rest ih =>
    intro a h
    rw [searchWith] at h
    split at h
    · rcases hc : cont ((c :: rest).drop lit.length) with _ | b <;> rw [hc] at h
      · exact ih a h
      · cases h; exact ⟨_, hc⟩
    · exact ih a h

theorem greedyLastCap_some_cap {α : Type} (pre : Str) (cap : Str → Option α) :
    ∀ (l : Str) (a : α), greedyLastCap pre cap l = some a → ∃ rest, cap rest = some a := by
  intro l
  induction l with
  | nil => intro a h; exact absurd h (by simp [greedyLastCap])
  | cons c rs ih =>
    intro a h
    rw [greedyLastCap] at h
    rcases hin : (if c = '\n' then none else greedyLastCap pre cap rs) with _ | b
    · rw [hin] at h
      dsimp only at h
      split at h
      · exact ⟨_, h⟩
      · exact Option.noConfusion h
    · rw [hin] at h
      dsimp only at h
      cases h
      split at hin
      · exact Option.noConfusion hin
      · exact ih a hin

theorem capId11_some (rest i : Str) (h : capId11 rest = some i) :
    i.length = 11 ∧ i.all idChar = true := by
  unfold capId11 at h
  split at h
  · cases h
    rename_i hcond
    obtain ⟨h1, h2⟩ := Bool.and_eq_true_iff.mp hcond
    exact ⟨of_decide_eq_true h1, h2⟩
  · exact Option.noConfusion h

theorem all_takeWhile (p : Char → Bool) :
    ∀ l : Str, (l.takeWhile p).all p = true := by
  intro l
  induction l with
  | nil => rfl
  | cons c rest ih =>
    rw [List.takeWhile_cons]
    by_cases h : p c
    · simp [h, ih]
    · simp [h]

theorem digitsRun_some (rest i : Str) (h : digitsRun rest = some i) :
    i ≠ [] ∧ i.all Char.isDigit = true := by
  unfold digitsRun at h
  split at h
  · exact Option.noConfusion h
  · cases h
    exact ⟨by assumption, all_takeWhile Char.isDigit rest⟩

theorem tiktokTail_some (rest i : Str) (h : tiktokTail rest = some i) :
    i ≠ [] ∧ i.all Char.isDigit = true := by
  unfold tiktokTail at h
  split at h
  · exact Option.noConfusion h
  · split at h
    · exact digitsRun_some _ _ h
    · exact Option.noConfusion h

theorem douyinUserTail_some (rest i : Str) (h : douyinUserTail rest = some i) :
    i ≠ [] ∧ i.all Char.isDigit = true := by
  unfold douyinUserTail at h
  split at h
  · exact Option.noConfusion h
  · split at h
    · obtain ⟨r, hr⟩ := greedyLastCap_some_cap _ _ _ _ h
      exact digitsRun_some _ _ hr
    · exact Option.noConfusion h

theorem dropWhile_dropWhile (p : Char → Bool) :
    ∀ l : Str, (l.dropWhile p).dropWhile p = l.dropWhile p := by
  intro l
  induction l with
  | nil => rfl
  | cons c rest ih =>
    by_cases h : p c <;> simp [List.dropWhile_cons, h, ih]

theorem dropWhile_all_false (p : Char → Bool) :
    ∀ l : Str, (∀ c ∈ l, p c = false) → l.dropWhile p = l := by
  intro l h
  cases l with
  | nil => rfl
  | cons c rest =>
    rw [List.dropWhile_cons, if_neg (by simp [h c (List.mem_cons_self c rest)])]

/-- `strip` of a string with no whitespace anywhere is the string itself. -/
theorem pyStrip_eq_self (l : Str) (h : ∀ c ∈ l, c.isWhitespace = false) :
    pyStrip l = l := by
  unfold pyStrip
  rw [dropWhile_all_false _ l h,
    dropWhile_all_false _ l.reverse (fun c hc => h c (List.mem_reverse.mp hc)),
    List.reverse_reverse]

/-- `strip` is idempotent. -/
theorem pyStrip_pyStrip (s : Str) : pyStrip (pyStrip s) = pyStrip s := by
  unfold pyStrip
  set A := s.dropWhile Char.isWhitespace with hA
  set B := (A.reverse.dropWhile Char.isWhitespace).reverse with hB
  have hBrev : B.reverse = A.reverse.dropWhile Char.isWhitespace := by
    rw [hB, List.reverse_reverse]
  have hstep1 : B.dropWhile Char.isWhitespace = B := by
    cases hBc : B with
    | nil => rfl
    | cons c B' =>
      have hpre : B <+: A := by
        have hsuf : A.reverse.dropWhile Char.isWhitespace <:+ A.reverse :=
          List.dropWhile_suffix _
        have h2 : (A.reverse.dropWhile Char.isWhitespace).reverse
            <+: A.reverse.reverse := List.reverse_prefix.mpr hsuf
        rw [List.reverse_reverse] at h2
        rw [hB]
        exact h2
      have hhead : ∃ t, A = c :: (B' ++ t) := by
        obtain ⟨t, ht⟩ := hpre
        exact ⟨t, by rw [← ht, hBc]; rfl⟩
      obtain ⟨t, ht⟩ := hhead
      have hcw : Char.isWhitespace c = false := by
        have hAdw : A.dropWhile Char.isWhitespace = A := by
          rw [hA]; exact dropWhile_dropWhile _ s
        rw [ht, List.dropWhile_cons] at hAdw
        by_cases hc : Char.isWhitespace c
        · rw [if_pos hc] at hAdw
          have hlen := congrArg List.length hAdw
          rw [List.length_cons] at hlen
          have hdw := (List.dropWhile_sublist (l := B' ++ t)
            Char.isWhitespace).length_le
          omega
        · simpa using hc
      rw [List.dropWhile_cons, if_neg (by simp [hcw])]
  rw [hstep1, hBrev, dropWhile_dropWhile, ← hBrev, List.reverse_reverse]

theorem idChar_not_ws (c : Char) (h : idChar c = true) : c.isWhitespace = false := by
  by_contra hw
  have hw' : c.isWhitespace = true := by
    cases hws : c.isWhitespace
    · exact absurd hws hw
    · rfl
  have hc4 : ((c = ' ' ∨ c = '\t') ∨ c = '\r') ∨ c = '\n' := by
    unfold Char.isWhitespace at hw'
    simpa using hw'
  rcases hc4 with ((rfl | rfl) | rfl) | rfl <;> exact absurd h (by decide)

theorem digit_not_ws (c : Char) (h : c.isDigit = true) : c.isWhitespace = false := by
  by_contra hw
  have hw' : c.isWhitespace = true := by
    cases hws : c.isWhitespace
    · exact absurd hws hw
    · rfl
  have hc4 : ((c = ' ' ∨ c = '\t') ∨ c = '\r') ∨ c = '\n' := by
    unfold Char.isWhitespace at hw'
    simpa using hw'
  rcases hc4 with ((rfl | rfl) | rfl) | rfl <;> exact absurd h (by decide)

theorem isPrefixOf_false_neg {l t : Str}
    (h : l.isPrefixOf t = false) : ¬ (l.isPrefixOf t = true) := by
  intro hp
  rw [h] at hp
  exact Bool.noConfusion hp

theorem searchWith_eq_none {α : Type} (lit : Str) (cont : Str → Option α) :
    ∀ l : Str, (∀ n, lit.isPrefixOf (l.drop n) = false) → searchWith lit cont l = none := by
  intro l
  induction l with
  | nil => intro _; rfl
  | cons c rest ih =>
    intro h
    rw [searchWith, if_neg (isPrefixOf_false_neg (by simpa using h 0))]
    exact ih (fun n => by simpa using h (n + 1))

theorem prefix_append_cases {l t u : Str} (h : l <+: t ++ u) :
    l <+: t ∨ (t <+: l ∧ l.drop t.length <+: u) := by
  induction t generalizing l with
  | nil =>
    right
    exact ⟨List.nil_prefix, by simpa using h⟩
  | cons a t' ih =>
    cases l with
    | nil => exact Or.inl (List.nil_prefix)
    | cons b l' =>
      rw [List.cons_append, List.cons_prefix_cons] at h
      obtain ⟨rfl, h'⟩ := h
      rcases ih h' with h1 | ⟨h2, h3⟩
      · exact Or.inl (List.cons_prefix_cons.mpr ⟨rfl, h1⟩)
      · exact Or.inr ⟨List.cons_prefix_cons.mpr ⟨rfl, h2⟩, by simpa using h3⟩

/-- Decidable certificate that `lit` can begin nowhere inside `conc` when
followed by characters satisfying `good`: at every start position in `conc`,
either the literal mismatches inside `conc`, or its continuation character
(the first one that would fall into the `good` region) fails `good`. -/
def concClear (conc lit : Str) (good : Char → Bool) : Bool :=
  (List.range conc.length).all (fun p =>
    !(lit.isPrefixOf (conc.drop p)) &&
      (!((conc.drop p).isPrefixOf lit) ||
        (match lit.drop (conc.drop p).length with
         | [] => false
         | c :: _ => !(good c))))

theorem not_occurs_append (conc u lit : Str) (good : Char → Bool)
    (hid : ∀ c ∈ u, good c = true)
    (c0 : Char) (cs : Str) (hlit : lit = c0 :: cs) (hc0 : good c0 = false)
    (hconc : concClear conc lit good = true) :
    ∀ n, lit.isPrefixOf ((conc ++ u).drop n) = false := by
  intro n
  by_cases hn : n < conc.length
  · have hdrop : (conc ++ u).drop n = conc.drop n ++ u :=
      List.drop_append_of_le_length (le_of_lt hn)
    rw [hdrop]
    have hcc := (List.all_eq_true.mp hconc) n (List.mem_range.mpr hn)
    obtain ⟨h1, h2⟩ := Bool.and_eq_true_iff.mp hcc
    by_contra hpre
    have hpre2 : lit.isPrefixOf (conc.drop n ++ u) = true := by
      rcases hp : lit.isPrefixOf (conc.drop n ++ u)
      · exact absurd hp hpre
      · rfl
    have hpre' : lit <+: conc.drop n ++ u := List.isPrefixOf_iff_prefix.mp hpre2
    rcases prefix_append_cases hpre' with hca | ⟨hcb, hrest⟩
    · rw [← List.isPrefixOf_iff_prefix] at hca
      rw [hca] at h1
      exact Bool.noConfusion h1
    · have h2' := h2
      rw [← List.isPrefixOf_iff_prefix] at hcb
      rw [hcb] at h2'
      simp only [Bool.not_true, Bool.false_or] at h2'
      rcases hld : lit.drop (conc.drop n).length with _ | ⟨c, rest⟩
      · rw [hld] at h2'
        exact Bool.noConfusion h2'
      · rw [hld] at h2'
        rw [hld] at hrest
        have hcu : c ∈ u := by
          obtain ⟨t2, ht2⟩ := hrest
          rw [← ht2]
          exact List.mem_append_left _ (List.mem_cons_self _ _)
        dsimp only at h2'
        rw [hid c hcu] at h2'
        simp at h2'
  · push_neg at hn
    obtain ⟨m, rfl⟩ := Nat.exists_eq_add_of_le hn
    have hdrop : (conc ++ u).drop (conc.length + m) = u.drop m := by
      rw [List.drop_append]
    rw [hdrop]
    rcases hu : u.drop m with _ | ⟨d, rest⟩
    · rw [hlit]
      rfl
    · rw [hlit]
      have hd : d ∈ u := by
        have : d ∈ u.drop m := by rw [hu]; exact List.mem_cons_self _ _
        exact List.mem_of_mem_drop this
      have : (c0 == d) = false := by
        have hgd := hid d hd
        rcases hcd : c0 == d
        · rfl
        · rw [eq_of_beq hcd] at hc0
          rw [hgd] at hc0
          exact Bool.noConfusion hc0
      simp [List.isPrefixOf, this]

theorem searchWith_skip {α : Type} (lit : Str) (cont : Str → Option α) :
    ∀ (l : Str) (k : Nat), (∀ p, p < k → lit.isPrefixOf (l.drop p) = false) →
      searchWith lit cont l = searchWith lit cont (l.drop k) := by
  intro l
  induction l with
  | nil => intro k _; simp
  | cons c rest ih =>
    intro k h
    cases k with
    | zero => rfl
    | succ k' =>
      rw [searchWith, if_neg (isPrefixOf_false_neg
        (by simpa using h 0 (Nat.succ_pos k')))]
      rw [List.drop_succ_cons]
      exact ih k' (fun p hp => by simpa using h (p + 1) (Nat.succ_lt_succ hp))

theorem isPrefixOf_append_left (l : Str) :
    ∀ (t u : Str), l.length ≤ t.length → l.isPrefixOf (t ++ u) = l.isPrefixOf t := by
  induction l with
  | nil => intro t u _; simp [List.isPrefixOf]
  | cons b l' ih =>
    intro t u hlen
    cases t with
    | nil => simp at hlen
    | cons a t' =>
      rw [List.cons_append]
      show ((b == a) && l'.isPrefixOf (t' ++ u)) = ((b == a) && l'.isPrefixOf t')
      rw [ih t' u (by simpa using hlen)]

theorem searchWith_found {α : Type} (lit : Str) (cont : Str → Option α)
    (l : Str) (hl : l ≠ []) (hpre : lit.isPrefixOf l = true) (a : α)
    (hcont : cont (l.drop lit.length) = some a) :
    searchWith lit cont l = some a := by
  cases l with
  | nil => exact absurd rfl hl
  | cons c rest =>
    rw [searchWith, if_pos hpre, hcont]

theorem takeWhile_eq_self_of_all (p : Char → Bool) :
    ∀ l : Str, (∀ c ∈ l, p c = true) → l.takeWhile p = l := by
  intro l h
  induction l with
  | nil => rfl
  | cons c rest ih =>
    rw [List.takeWhile_cons, if_pos (h c (List.mem_cons_self c rest))]
    rw [ih (fun d hd => h d (List.mem_cons_of_mem c hd))]

theorem idChar_ne_newline (c : Char) (h : idChar c = true) : c ≠ '\n' := by
  intro hc; subst hc; exact absurd h (by decide)

theorem idChar_ne_eq (c : Char) (h : idChar c = true) : c ≠ '=' := by
  intro hc; subst hc; exact absurd h (by decide)

/-- `greedyLastCap "v=" cap` finds nothing inside a run of id-characters
(no `=` can occur there). -/
theorem greedyLastCap_idChars {α : Type} (cap : Str → Option α) :
    ∀ l : Str, (∀ c ∈ l, idChar c = true) →
      greedyLastCap "v=".data cap l = none := by
  intro l
  induction l with
  | nil => intro _; rfl
  | cons c rs ih =>
    intro h
    rw [greedyLastCap]
    have hinner : (if c = '\n' then none
        else greedyLastCap "v=".data cap rs) = (none : Option α) := by
      split
      · rfl
      · exact ih (fun d hd => h d (List.mem_cons_of_mem c hd))
    rw [hinner]
    dsimp only
    have hnp : ("v=".data).isPrefixOf (c :: rs) = false := by
      cases rs with
      | nil => simp [List.isPrefixOf]
      | cons d rs' =>
        have hd : d ≠ '=' :=
          idChar_ne_eq d (h d (List.mem_cons_of_mem c (List.mem_cons_self d rs')))
        have : ('=' == d) = false := by
          rcases hbe : ('=' == d)
          · rfl
          · exact absurd (eq_of_beq hbe).symm hd
        simp [List.isPrefixOf, this]
    rw [if_neg (isPrefixOf_false_neg hnp)]

/-- At `v=` followed by exactly the 11-character id (end of string), the
greedy capture returns the id. -/
theorem greedyLastCap_at_id (i : Str) (hlen : i.length = 11)
    (hid : i.all idChar = true) :
    greedyLastCap "v=".data capId11 ('v' :: '=' :: i) = some i := by
  have hmem : ∀ c ∈ i, idChar c = true := List.all_eq_true.mp hid
  have h1 : greedyLastCap "v=".data capId11 i = none :=
    greedyLastCap_idChars capId11 i hmem
  have h2 : greedyLastCap "v=".data capId11 ('=' :: i) = none := by
    rw [greedyLastCap]
    rw [if_neg (by decide), h1]
    dsimp only
    have hnp : ("v=".data).isPrefixOf ('=' :: i) = false := by
      simp [List.isPrefixOf]
    rw [if_neg (isPrefixOf_false_neg hnp)]
  rw [greedyLastCap]
  rw [if_neg (by decide), h2]
  dsimp only
  have hpre : ("v=".data).isPrefixOf ('v' :: '=' :: i) = true := by
    simp [List.isPrefixOf]
  rw [if_pos hpre]
  show capId11 i = some i
  unfold capId11
  rw [List.take_of_length_le (le_of_eq hlen)]
  rw [if_pos (by simp [hlen, hid])]

/-- The YouTube watch pattern recaptures the id from its own canonical URL. -/
theorem patYtWatch_canonical (i : Str) (hlen : i.length = 11)
    (hid : i.all idChar = true) :
    patYtWatch ("https://www.youtube.com/watch?v=".data ++ i) = some (some i) := by
  have hc32 : ("https://www.youtube.com/watch?v=".data : Str).length = 32 := by decide
  have hl18 : ("youtube.com/watch?".data : Str).length = 18 := by decide
  have hy20 : ("youtube.com/watch?v=".data : Str).length = 20 := by decide
  have hfail : ∀ p, p < 12 →
      ("youtube.com/watch?".data).isPrefixOf
        (("https://www.youtube.com/watch?v=".data : Str).drop p) = false := by decide
  unfold patYtWatch
  have hskip := searchWith_skip "youtube.com/watch?".data
    (greedyLastCap "v=".data capId11)
    ("https://www.youtube.com/watch?v=".data ++ i) 12
    (by
      intro p hp
      rw [List.drop_append_of_le_length (by rw [hc32]; omega)]
      rw [isPrefixOf_append_left _ _ _ (by rw [hl18, List.length_drop, hc32]; omega)]
      exact hfail p hp)
  rw [hskip]
  have hd12 : ("https://www.youtube.com/watch?v=".data ++ i).drop 12
      = "youtube.com/watch?v=".data ++ i := by
    rw [List.drop_append_of_le_length (by rw [hc32]; omega)]
    rfl
  rw [hd12]
  have hfound := searchWith_found "youtube.com/watch?".data
    (greedyLastCap "v=".data capId11) ("youtube.com/watch?v=".data ++ i)
    (by simp)
    (by rw [isPrefixOf_append_left _ _ _ (by rw [hl18, hy20]; omega)]; decide)
    i
    (by
      rw [hl18, List.drop_append_of_le_length (by rw [hy20]; omega)]
      show greedyLastCap "v=".data capId11 ('v' :: '=' :: i) = some i
      exact greedyLastCap_at_id i hlen hid)
  rw [hfound]
  rfl

/-- Resolving the YouTube canonical URL again: the first pattern fires with
the same id. -/
theorem detect_ytCanonical (i : Str) (hlen : i.length = 11)
    (hid : i.all idChar = true) :
    detectFromPatterns PLATFORM_PATTERNS
        ("https://www.youtube.com/watch?v=".data ++ i)
      = some ⟨.youtube, "https://www.youtube.com/watch?v=".data ++ i, some i⟩ := by
  have h1 := patYtWatch_canonical i hlen hid
  simp only [PLATFORM_PATTERNS, detectFromPatterns, h1]
  rfl

/-- A pattern whose leading literal starts with a non-digit and cannot begin
anywhere in `conc` (certificate `concClear`) fails on `conc ++ digits`. -/
theorem searchWith_digits_none {α : Type} (lit : Str) (cont : Str → Option α)
    (conc : Str) (c0 : Char) (cs : Str) (hlit : lit = c0 :: cs)
    (hc0 : c0.isDigit = false) (hconc : concClear conc lit Char.isDigit = true)
    (i : Str) (hdig : i.all Char.isDigit = true) :
    searchWith lit cont (conc ++ i) = none :=
  searchWith_eq_none _ _ _ (not_occurs_append conc i lit Char.isDigit
    (List.all_eq_true.mp hdig) c0 cs hlit hc0 hconc)

/-- The Douyin video pattern recaptures the id from its own canonical URL. -/
theorem patDouyinVideo_canonical (i : Str) (hne : i ≠ [])
    (hdig : i.all Char.isDigit = true) :
    patDouyinVideo ("https://www.douyin.com/video/".data ++ i) = some (some i) := by
  have hc29 : ("https://www.douyin.com/video/".data : Str).length = 29 := by decide
  have hl17 : ("douyin.com/video/".data : Str).length = 17 := by decide
  have hfail : ∀ p, p < 12 →
      ("douyin.com/video/".data).isPrefixOf
        (("https://www.douyin.com/video/".data : Str).drop p) = false := by decide
  unfold patDouyinVideo
  have hskip := searchWith_skip "douyin.com/video/".data digitsRun
    ("https://www.douyin.com/video/".data ++ i) 12
    (by
      intro p hp
      rw [List.drop_append_of_le_length (by rw [hc29]; omega)]
      rw [isPrefixOf_append_left _ _ _ (by rw [hl17, List.length_drop, hc29]; omega)]
      exact hfail p hp)
  rw [hskip]
  have hd12 : ("https://www.douyin.com/video/".data ++ i).drop 12
      = "douyin.com/video/".data ++ i := by
    rw [List.drop_append_of_le_length (by rw [hc29]; omega)]
    rfl
  rw [hd12]
  have hfound := searchWith_found "douyin.com/video/".data digitsRun
    ("douyin.com/video/".data ++ i)
    (by simp)
    (by rw [isPrefixOf_append_left _ _ _ (by rw [hl17])]; decide)
    i
    (by
      rw [hl17, List.drop_append_of_le_length (by rw [hl17])]
      have : ("douyin.com/video/".data : Str).drop 17 = [] := by decide
      rw [this, List.nil_append]
      unfold digitsRun
      rw [takeWhile_eq_self_of_all Char.isDigit i (List.all_eq_true.mp hdig)]
      rw [if_neg hne])
  rw [hfound]
  rfl

/-- Resolving the Douyin canonical URL again: the seven earlier patterns all
fail and the Douyin video pattern fires with the same id. -/
theorem detect_dyCanonical (i : Str) (hne : i ≠ [])
    (hdig : i.all Char.isDigit = true) :
    detectFromPatterns PLATFORM_PATTERNS
        ("https://www.douyin.com/video/".data ++ i)
      = some ⟨.douyin, "https://www.douyin.com/video/".data ++ i, some i⟩ := by
  have h1 : patYtWatch ("https://www.douyin.com/video/".data ++ i) = none := by
    unfold patYtWatch
    rw [searchWith_digits_none _ _ _ 'y' _ rfl (by decide) (by decide) i hdig]
    rfl
  have h2 : patYtShort ("https://www.douyin.com/video/".data ++ i) = none := by
    unfold patYtShort
    rw [searchWith_digits_none _ _ _ 'y' _ rfl (by decide) (by decide) i hdig]
    rfl
  have h3 : patYtShorts ("https://www.douyin.com/video/".data ++ i) = none := by
    unfold patYtShorts
    rw [searchWith_digits_none _ _ _ 'y' _ rfl (by decide) (by decide) i hdig]
    rfl
  have h4 : patYtEmbed ("https://www.douyin.com/video/".data ++ i) = none := by
    unfold patYtEmbed
    rw [searchWith_digits_none _ _ _ 'y' _ rfl (by decide) (by decide) i hdig]
    rfl
  have h5 : patYtMobile ("https://www.douyin.com/video/".data ++ i) = none := by
    unfold patYtMobile
    rw [searchWith_digits_none _ _ _ 'm' _ rfl (by decide) (by decide) i hdig]
    rfl
  have h6 : patTiktokVideo ("https://www.douyin.com/video/".data ++ i) = none := by
    unfold patTiktokVideo
    rw [searchWith_digits_none _ _ _ 't' _ rfl (by decide) (by decide) i hdig]
    rfl
  have h7 : patTiktokShort ("https://www.douyin.com/video/".data ++ i) = none := by
    unfold patTiktokShort
    rw [searchWith_digits_none _ _ _ 'v' _ rfl (by decide) (by decide) i hdig]
    rfl
  have h8 := patDouyinVideo_canonical i hne hdig
  have hcanon : canonical_for .douyin (some i)
      ("https://www.douyin.com/video/".data ++ i)
      = "https://www.douyin.com/video/".data ++ i := by
    unfold canonical_for
    dsimp only
    rw [if_neg hne]
  simp only [PLATFORM_PATTERNS, detectFromPatterns, h1, h2, h3, h4, h5, h6, h7, h8]
  rw [hcanon]

theorem patYtWatch_some (s : Str) (v : Option Str) (h : patYtWatch s = some v) :
    ∃ i, v = some i ∧ i.length = 11 ∧ i.all idChar = true := by
  unfold patYtWatch at h
  rcases hsw : searchWith "youtube.com/watch?".data
      (greedyLastCap "v=".data capId11) s with _ | i <;> rw [hsw] at h
  · exact Option.noConfusion h
  · cases h
    obtain ⟨r1, hr1⟩ := searchWith_some_from_cont _ _ _ _ hsw
    obtain ⟨r2, hr2⟩ := greedyLastCap_some_cap _ _ _ _ hr1
    obtain ⟨hl, ha⟩ := capId11_some _ _ hr2
    exact ⟨i, rfl, hl, ha⟩

theorem patYtShort_some (s : Str) (v : Option Str) (h : patYtShort s = some v) :
    ∃ i, v = some i ∧ i.length = 11 ∧ i.all idChar = true := by
  unfold patYtShort at h
  rcases hsw : searchWith "youtu.be/".data capId11 s with _ | i <;> rw [hsw] at h
  · exact Option.noConfusion h
  · cases h
    obtain ⟨r1, hr1⟩ := searchWith_some_from_cont _ _ _ _ hsw
    obtain ⟨hl, ha⟩ := capId11_some _ _ hr1
    exact ⟨i, rfl, hl, ha⟩

theorem patYtShorts_some (s : Str) (v : Option Str) (h : patYtShorts s = some v) :
    ∃ i, v = some i ∧ i.length = 11 ∧ i.all idChar = true := by
  unfold patYtShorts at h
  rcases hsw : searchWith "youtube.com/shorts/".data capId11 s with _ | i <;>
    rw [hsw] at h
  · exact Option.noConfusion h
  · cases h
    obtain ⟨r1, hr1⟩ := searchWith_some_from_cont _ _ _ _ hsw
    obtain ⟨hl, ha⟩ := capId11_some _ _ hr1
    exact ⟨i, rfl, hl, ha⟩

theorem patYtEmbed_some (s : Str) (v : Option Str) (h : patYtEmbed s = some v) :
    ∃ i, v = some i ∧ i.length = 11 ∧ i.all idChar = true := by
  unfold patYtEmbed at h
  rcases hsw : searchWith "youtube.com/embed/".data capId11 s with _ | i <;>
    rw [hsw] at h
  · exact Option.noConfusion h
  · cases h
    obtain ⟨r1, hr1⟩ := searchWith_some_from_cont _ _ _ _ hsw
    obtain ⟨hl, ha⟩ := capId11_some _ _ hr1
    exact ⟨i, rfl, hl, ha⟩

theorem patYtMobile_some (s : Str) (v : Option Str) (h : patYtMobile s = some v) :
    ∃ i, v = some i ∧ i.length = 11 ∧ i.all idChar = true := by
  unfold patYtMobile at h
  rcases hsw : searchWith "m.youtube.com/watch?".data
      (greedyLastCap "v=".data capId11) s with _ | i <;> rw [hsw] at h
  · exact Option.noConfusion h
  · cases h
    obtain ⟨r1, hr1⟩ := searchWith_some_from_cont _ _ _ _ hsw
    obtain ⟨r2, hr2⟩ := greedyLastCap_some_cap _ _ _ _ hr1
    obtain ⟨hl, ha⟩ := capId11_some _ _ hr2
    exact ⟨i, rfl, hl, ha⟩

theorem patTiktokVideo_some (s : Str) (v : Option Str)
    (h : patTiktokVideo s = some v) :
    ∃ i, v = some i ∧ i ≠ [] ∧ i.all Char.isDigit = true := by
  unfold patTiktokVideo at h
  rcases hsw : searchWith "tiktok.com/@".data tiktokTail s with _ | i <;>
    rw [hsw] at h
  · exact Option.noConfusion h
  · cases h
    obtain ⟨r1, hr1⟩ := searchWith_some_from_cont _ _ _ _ hsw
    obtain ⟨hne, ha⟩ := tiktokTail_some _ _ hr1
    exact ⟨i, rfl, hne, ha⟩

theorem patTiktokShort_some (s : Str) (v : Option Str)
    (h : patTiktokShort s = some v) : v = none := by
  unfold patTiktokShort at h
  rcases hsw : searchWith "vm.tiktok.com/".data alnumHead s with _ | u <;>
    rw [hsw] at h
  · exact Option.noConfusion h
  · cases h; rfl

theorem patDouyinVideo_some (s : Str) (v : Option Str)
    (h : patDouyinVideo s = some v) :
    ∃ i, v = some i ∧ i ≠ [] ∧ i.all Char.isDigit = true := by
  unfold patDouyinVideo at h
  rcases hsw : searchWith "douyin.com/video/".data digitsRun s with _ | i <;>
    rw [hsw] at h
  · exact Option.noConfusion h
  · cases h
    obtain ⟨r1, hr1⟩ := searchWith_some_from_cont _ _ _ _ hsw
    obtain ⟨hne, ha⟩ := digitsRun_some _ _ hr1
    exact ⟨i, rfl, hne, ha⟩

theorem patDouyinUser_some (s : Str) (v : Option Str)
    (h : patDouyinUser s = some v) :
    ∃ i, v = some i ∧ i ≠ [] ∧ i.all Char.isDigit = true := by
  unfold patDouyinUser at h
  rcases hsw : searchWith "douyin.com/user/".data douyinUserTail s with _ | i <;>
    rw [hsw] at h
  · exact Option.noConfusion h
  · cases h
    obtain ⟨r1, hr1⟩ := searchWith_some_from_cont _ _ _ _ hsw
    obtain ⟨hne, ha⟩ := douyinUserTail_some _ _ hr1
    exact ⟨i, rfl, hne, ha⟩

theorem patDouyinShort_some (s : Str) (v : Option Str)
    (h : patDouyinShort s = some v) : v = none := by
  unfold patDouyinShort at h
  rcases hsw : searchWith "v.douyin.com/".data alnumHead s with _ | u <;>
    rw [hsw] at h
  · exact Option.noConfusion h
  · cases h; rfl

/-- Case analysis of a successful pattern-loop run: the four shapes of
result a detection can produce. -/
theorem detect_cases (s : Str) (r : URLValidationResult)
    (h : detectFromPatterns PLATFORM_PATTERNS s = some r) :
    (r.platform = .youtube ∧ ∃ i, r.video_id = some i ∧ i.length = 11 ∧
      i.all idChar = true ∧
      r.canonical_url = "https://www.youtube.com/watch?v=".data ++ i) ∨
    (r.platform = .tiktok ∧ r.canonical_url = s ∧
      ((∃ i, r.video_id = some i ∧ i ≠ [] ∧ i.all Char.isDigit = true) ∨
        r.video_id = none)) ∨
    (r.platform = .douyin ∧ ∃ i, r.video_id = some i ∧ i ≠ [] ∧
      i.all Char.isDigit = true ∧
      r.canonical_url = "https://www.douyin.com/video/".data ++ i) ∨
    (r.platform = .douyin ∧ r.video_id = none ∧ r.canonical_url = s) := by
  simp only [PLATFORM_PATTERNS, detectFromPatterns] at h
  rcases h1 : patYtWatch s with _ | v <;> rw [h1] at h
  case some =>
    dsimp only at h
    cases h
    obtain ⟨i, rfl, hl, ha⟩ := patYtWatch_some s v h1
    exact Or.inl ⟨rfl, i, rfl, hl, ha, rfl⟩
  dsimp only at h
  rcases h2 : patYtShort s with _ | v <;> rw [h2] at h
  case some =>
    dsimp only at h
    cases h
    obtain ⟨i, rfl, hl, ha⟩ := patYtShort_some s v h2
    exact Or.inl ⟨rfl, i, rfl, hl, ha, rfl⟩
  dsimp only at h
  rcases h3 : patYtShorts s with _ | v <;> rw [h3] at h
  case some =>
    dsimp only at h
    cases h
    obtain ⟨i, rfl, hl, ha⟩ := patYtShorts_some s v h3
    exact Or.inl ⟨rfl, i, rfl, hl, ha, rfl⟩
  dsimp only at h
  rcases h4 : patYtEmbed s with _ | v <;> rw [h4] at h
  case some =>
    dsimp only at h
    cases h
    obtain ⟨i, rfl, hl, ha⟩ := patYtEmbed_some s v h4
    exact Or.inl ⟨rfl, i, rfl, hl, ha, rfl⟩
  dsimp only at h
  rcases h5 : patYtMobile s with _ | v <;> rw [h5] at h
  case some =>
    dsimp only at h
    cases h
    obtain ⟨i, rfl, hl, ha⟩ := patYtMobile_some s v h5
    exact Or.inl ⟨rfl, i, rfl, hl, ha, rfl⟩
  dsimp only at h
  rcases h6 : patTiktokVideo s with _ | v <;> rw [h6] at h
  case some =>
    dsimp only at h
    cases h
    obtain ⟨i, rfl, hne, ha⟩ := patTiktokVideo_some s v h6
    exact Or.inr (Or.inl ⟨rfl, rfl, Or.inl ⟨i, rfl, hne, ha⟩⟩)
  dsimp only at h
  rcases h7 : patTiktokShort s with _ | v <;> rw [h7] at h
  case some =>
    dsimp only at h
    cases h
    have := patTiktokShort_some s v h7
    subst this
    exact Or.inr (Or.inl ⟨rfl, rfl, Or.inr rfl⟩)
  dsimp only at h
  rcases h8 : patDouyinVideo s with _ | v <;> rw [h8] at h
  case some =>
    dsimp only at h
    cases h
    obtain ⟨i, rfl, hne, ha⟩ := patDouyinVideo_some s v h8
    refine Or.inr (Or.inr (Or.inl ⟨rfl, i, rfl, hne, ha, ?_⟩))
    show canonical_for .douyin (some i) s = _
    unfold canonical_for
    dsimp only
    rw [if_neg hne]
  dsimp only at h
  rcases h9 : patDouyinUser s with _ | v <;> rw [h9] at h
  case some =>
    dsimp only at h
    cases h
    obtain ⟨i, rfl, hne, ha⟩ := patDouyinUser_some s v h9
    refine Or.inr (Or.inr (Or.inl ⟨rfl, i, rfl, hne, ha, ?_⟩))
    show canonical_for .douyin (some i) s = _
    unfold canonical_for
    dsimp only
    rw [if_neg hne]
  dsimp only at h
  rcases h10 : patDouyinShort s with _ | v <;> rw [h10] at h
  case some =>
    dsimp only at h
    cases h
    have := patDouyinShort_some s v h10
    subst this
    exact Or.inr (Or.inr (Or.inr ⟨rfl, rfl, rfl⟩))
  dsimp only at h
  exact Option.noConfusion h

theorem detect_ok_elim (u : URLInput) (r : URLValidationResult)
    (h : detect_platform u = .ok r) :
    ∃ s, u = .ofStr s ∧ pyStrip s ≠ [] ∧
      detectFromPatterns PLATFORM_PATTERNS (pyStrip s) = some r := by
  cases u with
  | nonString => exact Except.noConfusion h
  | ofStr s =>
    refine ⟨s, rfl, ?_, ?_⟩ <;> unfold detect_platform at h <;> dsimp only at h
    · intro hnil
      rw [if_pos hnil] at h
      exact Except.noConfusion h
    · by_cases hnil : pyStrip s = []
      · rw [if_pos hnil] at h
        exact Except.noConfusion h
      · rw [if_neg hnil] at h
        rcases hd : detectFromPatterns PLATFORM_PATTERNS (pyStrip s) with _ | r0 <;>
          rw [hd] at h <;> dsimp only at h
        · exact Except.noConfusion h
        · cases h
          rfl

theorem ws_free_yt_base :
    ∀ c ∈ ("https://www.youtube.com/watch?v=".data : Str), c.isWhitespace = false := by
  decide

theorem ws_free_dy_base :
    ∀ c ∈ ("https://www.douyin.com/video/".data : Str), c.isWhitespace = false := by
  decide

/-- Resolution of the canonical URL reproduces the full result record. -/
theorem detect_idempotent (u : URLInput) (r : URLValidationResult)
    (h : detect_platform u = .ok r) :
    detect_platform (.ofStr r.canonical_url) = .ok r := by
  obtain ⟨s, rfl, hne, hd⟩ := detect_ok_elim u r h
  obtain ⟨plat, canon, vid⟩ := r
  rcases detect_cases _ _ hd with
    ⟨hp, i, hv, hl, ha, hc⟩ | ⟨hp, hc, _⟩ |
    ⟨hp, i, hv, hne', ha, hc⟩ | ⟨hp, hv, hc⟩
  · simp only at hp hv hc
    subst hp; subst hv; subst hc
    have hwf : ∀ c ∈ ("https://www.youtube.com/watch?v=".data ++ i), c.isWhitespace = false := by
      intro c hc
      rcases List.mem_append.mp hc with h1 | h2
      · exact ws_free_yt_base c h1
      · exact idChar_not_ws c (List.all_eq_true.mp ha c h2)
    have hstrip : pyStrip ("https://www.youtube.com/watch?v=".data ++ i)
        = "https://www.youtube.com/watch?v=".data ++ i := pyStrip_eq_self _ hwf
    unfold detect_platform
    dsimp only
    rw [hstrip, if_neg (by simp), detect_ytCanonical i hl ha]
  · simp only at hp hc
    subst hp; subst hc
    unfold detect_platform
    dsimp only
    rw [pyStrip_pyStrip s]
    rw [if_neg hne, hd]
  · simp only at hp hv hc
    subst hp; subst hv; subst hc
    have hwf : ∀ c ∈ ("https://www.douyin.com/video/".data ++ i), c.isWhitespace = false := by
      intro c hc
      rcases List.mem_append.mp hc with h1 | h2
      · exact ws_free_dy_base c h1
      · exact digit_not_ws c (List.all_eq_true.mp ha c h2)
    have hstrip : pyStrip ("https://www.douyin.com/video/".data ++ i)
        = "https://www.douyin.com/video/".data ++ i := pyStrip_eq_self _ hwf
    unfold detect_platform
    dsimp only
    rw [hstrip, if_neg (by simp), detect_dyCanonical i hne' ha]
  · simp only at hp hv hc
    subst hp; subst hv; subst hc
    unfold detect_platform
    dsimp only
    rw [pyStrip_pyStrip s]
    rw [if_neg hne, hd]

/-- Counterexample to C3 as stated: two TikTok URLs designating the same
platform video id 123 resolve to different canonical URLs (the trimmed
originals). -/
theorem claim_C3_counterexample :
    detect_platform (.ofStr "https://www.tiktok.com/@alice/video/123".data)
      = .ok ⟨.tiktok, "https://www.tiktok.com/@alice/video/123".data, some "123".data⟩ ∧
    detect_platform (.ofStr "https://www.tiktok.com/@bob/video/123".data)
      = .ok ⟨.tiktok, "https://www.tiktok.com/@bob/video/123".data, some "123".data⟩ ∧
    "https://www.tiktok.com/@alice/video/123".data
      ≠ "https://www.tiktok.com/@bob/video/123".data := by
  refine ⟨rfl, rfl, by decide⟩

/-- C3 (amended): resolution is idempotent — re-resolving the returned
canonical URL reproduces the identical result record — and two accepted URLs
with the same platform and the same captured video id get the same canonical
URL whenever the platform is YouTube or Douyin; for TikTok the canonical URL
is the trimmed original, so equal ids need not give equal canonicals. -/
theorem claim_C3_resolver (u : URLInput) (r : URLValidationResult)
    (h : detect_platform u = .ok r) :
    detect_platform (.ofStr r.canonical_url) = .ok r ∧
    (∀ u2 r2 i, detect_platform u2 = .ok r2 →
      r.platform = r2.platform → r.platform ≠ .tiktok →
      r.video_id = some i → r2.video_id = some i →
      r.canonical_url = r2.canonical_url) := by
  refine ⟨detect_idempotent u r h, ?_⟩
  intro u2 r2 i h2 hplat htk hv1 hv2
  obtain ⟨s1, rfl, hne1, hd1⟩ := detect_ok_elim u r h
  obtain ⟨s2, rfl, hne2, hd2⟩ := detect_ok_elim u2 r2 h2
  rcases detect_cases _ _ hd1 with
    ⟨hp1, j1, hvv1, _, _, hc1⟩ | ⟨hp1, _, _⟩ |
    ⟨hp1, j1, hvv1, _, _, hc1⟩ | ⟨hp1, hvv1, _⟩
  · rcases detect_cases _ _ hd2 with
      ⟨hp2, j2, hvv2, _, _, hc2⟩ | ⟨hp2, _, _⟩ |
      ⟨hp2, j2, hvv2, _, _, hc2⟩ | ⟨hp2, hvv2, _⟩
    · rw [hvv1] at hv1
      rw [hvv2] at hv2
      cases hv1; cases hv2
      rw [hc1, hc2]
    · rw [hp1, hp2] at hplat
      exact absurd hplat (by simp)
    · rw [hp1, hp2] at hplat
      exact absurd hplat (by simp)
    · rw [hvv2] at hv2
      exact Option.noConfusion hv2
  · exact absurd hp1 htk
  · rcases detect_cases _ _ hd2 with
      ⟨hp2, j2, hvv2, _, _, hc2⟩ | ⟨hp2, _, _⟩ |
      ⟨hp2, j2, hvv2, _, _, hc2⟩ | ⟨hp2, hvv2, _⟩
    · rw [hp1, hp2] at hplat
      exact absurd hplat (by simp)
    · rw [hp1, hp2] at hplat
      exact absurd hplat (by simp)
    · rw [hvv1] at hv1
      rw [hvv2] at hv2
      cases hv1; cases hv2
      rw [hc1, hc2]
    · rw [hvv2] at hv2
      exact Option.noConfusion hv2
  · rw [hvv1] at hv1
    exact Option.noConfusion hv1

def wYtResult : URLValidationResult :=
  ⟨.youtube, "https://www.youtube.com/watch?v=".data ++ "dQw4w9WgXcQ".data,
    some "dQw4w9WgXcQ".data⟩

/-- Witness for C3: a concrete youtu.be URL resolves, and re-resolving its
canonical URL reproduces the same record. -/
theorem claim_C3_resolver_witness :
    detect_platform (.ofStr wYtResult.canonical_url) = .ok wYtResult ∧
    detect_platform (.ofStr "https://youtu.be/dQw4w9WgXcQ".data) = .ok wYtResult := by
  have h : detect_platform (.ofStr "https://youtu.be/dQw4w9WgXcQ".data)
      = .ok wYtResult := by rfl
  exact ⟨(claim_C3_resolver _ wYtResult h).1, h⟩

theorem detectFromPatterns_none_iff :
    ∀ (ps : List (Platform × (Str → Option (Option Str)))) (s : Str),
      detectFromPatterns ps s = none ↔ ∀ pp ∈ ps, pp.2 s = none := by
  intro ps s
  induction ps with
  | nil => simp [detectFromPatterns]
  | cons pp rest ih =>
    obtain ⟨plat, pat⟩ := pp
    rw [detectFromPatterns]
    rcases hp : pat s with _ | v
    · dsimp only
      rw [ih]
      constructor
      · intro h q hq
        rcases List.mem_cons.mp hq with rfl | hq'
        · exact hp
        · exact h q hq'
      · intro h q hq
        exact h q (List.mem_cons_of_mem _ hq)
    · dsimp only
      constructor
      · intro h; exact Option.noConfusion h
      · intro h
        have hthis := h (plat, pat) (List.mem_cons_self _ _)
        dsimp only at hthis
        rw [hp] at hthis
        exact Option.noConfusion hthis

/-- C5: the resolver raises `InvalidURL` exactly when the input is a
non-string, strips to empty, or matches none of the registered patterns; on
success the canonical URL is the rebuilt watch URL for YouTube, the rebuilt
video URL for Douyin matches with a captured id, and the trimmed original
otherwise (TikTok and the id-less Douyin short-link form). -/
theorem claim_C5_detect_contract :
    (∀ u : URLInput, (∃ e, detect_platform u = .error e) ↔
      (u = .nonString ∨ ∃ s, u = .ofStr s ∧
        (pyStrip s = [] ∨ ∀ pp ∈ PLATFORM_PATTERNS, pp.2 (pyStrip s) = none))) ∧
    (∀ s r, detect_platform (.ofStr s) = .ok r →
      (r.platform = .youtube → ∃ i, r.video_id = some i ∧
        r.canonical_url = "https://www.youtube.com/watch?v=".data ++ i) ∧
      (r.platform = .douyin →
        (∃ i, r.video_id = some i ∧ i ≠ [] ∧
          r.canonical_url = "https://www.douyin.com/video/".data ++ i) ∨
        (r.video_id = none ∧ r.canonical_url = pyStrip s)) ∧
      (r.platform = .tiktok → r.canonical_url = pyStrip s)) := by
  constructor
  · intro u
    constructor
    · rintro ⟨e, he⟩
      cases u with
      | nonString => exact Or.inl rfl
      | ofStr s =>
        refine Or.inr ⟨s, rfl, ?_⟩
        by_cases hnil : pyStrip s = []
        · exact Or.inl hnil
        · refine Or.inr ?_
          rw [← detectFromPatterns_none_iff]
          unfold detect_platform at he
          dsimp only at he
          rw [if_neg hnil] at he
          rcases hd : detectFromPatterns PLATFORM_PATTERNS (pyStrip s) with _ | r0
          · rfl
          · rw [hd] at he
            exact Except.noConfusion he
    · rintro (rfl | ⟨s, rfl, hnil | hall⟩)
      · exact ⟨_, rfl⟩
      · exact ⟨"URL must be a non-empty string".data, by
          unfold detect_platform
          dsimp only
          rw [if_pos hnil]⟩
      · by_cases hnil : pyStrip s = []
        · exact ⟨"URL must be a non-empty string".data, by
            unfold detect_platform
            dsimp only
            rw [if_pos hnil]⟩
        · exact ⟨"Unsupported or invalid URL: ".data ++ pyStrip s, by
            unfold detect_platform
            dsimp only
            rw [if_neg hnil, (detectFromPatterns_none_iff _ _).mpr hall]⟩
  · intro s r h
    obtain ⟨s', heq, hne, hd⟩ := detect_ok_elim _ r h
    cases heq
    rcases detect_cases _ _ hd with
      ⟨hp, i, hv, _, _, hc⟩ | ⟨hp, hc, _⟩ |
      ⟨hp, i, hv, hne', _, hc⟩ | ⟨hp, hv, hc⟩
    · refine ⟨fun _ => ⟨i, hv, hc⟩, fun hpd => ?_, fun hpt => ?_⟩
      · rw [hp] at hpd; exact Platform.noConfusion hpd
      · rw [hp] at hpt; exact Platform.noConfusion hpt
    · refine ⟨fun hpy => ?_, fun hpd => ?_, fun _ => hc⟩
      · rw [hp] at hpy; exact Platform.noConfusion hpy
      · rw [hp] at hpd; exact Platform.noConfusion hpd
    · refine ⟨fun hpy => ?_, fun _ => Or.inl ⟨i, hv, hne', hc⟩, fun hpt => ?_⟩
      · rw [hp] at hpy; exact Platform.noConfusion hpy
      · rw [hp] at hpt; exact Platform.noConfusion hpt
    · refine ⟨fun hpy => ?_, fun _ => Or.inr ⟨hv, hc⟩, fun hpt => ?_⟩
      · rw [hp] at hpy; exact Platform.noConfusion hpy
      · rw [hp] at hpt; exact Platform.noConfusion hpt

/-- Witness for C5 at a concrete Douyin modal URL: accepted, and the
canonical URL is the rebuilt Douyin video URL. -/
theorem claim_C5_detect_contract_witness :
    ∃ i, (⟨.douyin, "https://www.douyin.com/video/42".data, some "42".data⟩
        : URLValidationResult).video_id = some i ∧ i ≠ [] ∧
      (⟨.douyin, "https://www.douyin.com/video/42".data, some "42".data⟩
        : URLValidationResult).canonical_url
        = "https://www.douyin.com/video/".data ++ i := by
  have h : detect_platform (.ofStr "https://www.douyin.com/user/abc?modal_id=42".data)
      = .ok ⟨.douyin, "https://www.douyin.com/video/42".data, some "42".data⟩ := by rfl
  have hc := (claim_C5_detect_contract.2
    "https://www.douyin.com/user/abc?modal_id=42".data _ h).2.1 rfl
  rcases hc with hgood | ⟨hbad, _⟩
  · exact hgood
  · exact Option.noConfusion hbad

/-- Index of the first pattern that matches, in registry order. -/
def matchedIndex :
    List (Platform × (Str → Option (Option Str))) → Str → Option Nat
  | [], _ => none
  | (_, pat) :: rest, s =>
    match pat s with
    | some _ => some 0
    | none => (matchedIndex rest s).map (· + 1)

theorem detect_matchedIndex :
    ∀ (ps : List (Platform × (Str → Option (Option Str)))) (s : Str)
      (r : URLValidationResult), detectFromPatterns ps s = some r →
      ∃ k plat pat, matchedIndex ps s = some k ∧ ps.get? k = some (plat, pat) ∧
        pat s = some r.video_id ∧ r.platform = plat := by
  intro ps
  induction ps with
  | nil => intro s r h; exact Option.noConfusion h
  | cons pp rest ih =>
    intro s r h
    obtain ⟨plat, pat⟩ := pp
    rw [detectFromPatterns] at h
    rw [matchedIndex]
    rcases hp : pat s with _ | v <;> rw [hp] at h <;> dsimp only at h
    · obtain ⟨k, plat', pat', hk, hget, hpat, hplat⟩ := ih s r h
      exact ⟨k + 1, plat', pat', by rw [hk]; rfl, by simpa using hget, hpat, hplat⟩
    · cases h
      exact ⟨0, plat, pat, rfl, rfl, hp, rfl⟩

/-- C10: for an accepted URL, `video_id` is `None` exactly when the pattern
the resolver matched (the first matching one, in registry order) is one of
the two id-less short-link patterns — index 6 (`vm.tiktok.com`) or index 9
(`v.douyin.com`); in every other accepted case the id is a captured string,
and for YouTube it is an 11-character id embedded in the canonical URL. -/
theorem claim_C10_video_id (s : Str) (r : URLValidationResult)
    (h : detect_platform (.ofStr s) = .ok r) :
    ((r.video_id = none ↔
      (matchedIndex PLATFORM_PATTERNS (pyStrip s) = some 6 ∨
        matchedIndex PLATFORM_PATTERNS (pyStrip s) = some 9)) ∧
    PLATFORM_PATTERNS.get? 6 = some (.tiktok, patTiktokShort) ∧
    PLATFORM_PATTERNS.get? 9 = some (.douyin, patDouyinShort)) ∧
    (r.platform = .youtube → ∃ i, r.video_id = some i ∧ i.length = 11 ∧
      r.canonical_url = "https://www.youtube.com/watch?v=".data ++ i) := by
  obtain ⟨s', heq, hne, hd⟩ := detect_ok_elim _ r h
  cases heq
  obtain ⟨k, plat, pat, hk, hget, hpat, hplat⟩ := detect_matchedIndex _ _ _ hd
  have hk10 : k < 10 := by
    by_contra hge
    push_neg at hge
    rw [List.get?_eq_none.mpr (by simpa using hge)] at hget
    exact Option.noConfusion hget
  refine ⟨⟨?_, rfl, rfl⟩, ?_⟩
  · constructor
    · intro hnone
      rw [hnone] at hpat
      have hkor : k = 6 ∨ k = 9 := by
        interval_cases k
        · have h2 : pat = patYtWatch :=
            (congrArg Prod.snd (Option.some.inj hget)).symm
          rw [h2] at hpat
          obtain ⟨i, hi, _⟩ := patYtWatch_some _ _ hpat
          exact absurd hi (by simp)
        · have h2 : pat = patYtShort :=
            (congrArg Prod.snd (Option.some.inj hget)).symm
          rw [h2] at hpat
          obtain ⟨i, hi, _⟩ := patYtShort_some _ _ hpat
          exact absurd hi (by simp)
        · have h2 : pat = patYtShorts :=
            (congrArg Prod.snd (Option.some.inj hget)).symm
          rw [h2] at hpat
          obtain ⟨i, hi, _⟩ := patYtShorts_some _ _ hpat
          exact absurd hi (by simp)
        · have h2 : pat = patYtEmbed :=
            (congrArg Prod.snd (Option.some.inj hget)).symm
          rw [h2] at hpat
          obtain ⟨i, hi, _⟩ := patYtEmbed_some _ _ hpat
          exact absurd hi (by simp)
        · have h2 : pat = patYtMobile :=
            (congrArg Prod.snd (Option.some.inj hget)).symm
          rw [h2] at hpat
          obtain ⟨i, hi, _⟩ := patYtMobile_some _ _ hpat
          exact absurd hi (by simp)
        · have h2 : pat = patTiktokVideo :=
            (congrArg Prod.snd (Option.some.inj hget)).symm
          rw [h2] at hpat
          obtain ⟨i, hi, _⟩ := patTiktokVideo_some _ _ hpat
          exact absurd hi (by simp)
        · exact Or.inl rfl
        · have h2 : pat = patDouyinVideo :=
            (congrArg Prod.snd (Option.some.inj hget)).symm
          rw [h2] at hpat
          obtain ⟨i, hi, _⟩ := patDouyinVideo_some _ _ hpat
          exact absurd hi (by simp)
        · have h2 : pat = patDouyinUser :=
            (congrArg Prod.snd (Option.some.inj hget)).symm
          rw [h2] at hpat
          obtain ⟨i, hi, _⟩ := patDouyinUser_some _ _ hpat
          exact absurd hi (by simp)
        · exact Or.inr rfl
      rcases hkor with rfl | rfl
      · exact Or.inl hk
      · exact Or.inr hk
    · intro hcase
      have hkval : k = 6 ∨ k = 9 := by
        rcases hcase with h6 | h9
        · exact Or.inl (Option.some.inj (hk.symm.trans h6))
        · exact Or.inr (Option.some.inj (hk.symm.trans h9))
      rcases hkval with rfl | rfl
      · have h2 : pat = patTiktokShort :=
          (congrArg Prod.snd (Option.some.inj hget)).symm
        rw [h2] at hpat
        exact patTiktokShort_some _ _ hpat
      · have h2 : pat = patDouyinShort :=
          (congrArg Prod.snd (Option.some.inj hget)).symm
        rw [h2] at hpat
        exact patDouyinShort_some _ _ hpat
  · intro hyt
    rcases detect_cases _ _ hd with
      ⟨_, i, hv, hl, _, hc⟩ | ⟨hp, _, _⟩ | ⟨hp, _⟩ | ⟨hp, _, _⟩
    · exact ⟨i, hv, hl, hc⟩
    · rw [hyt] at hp; exact Platform.noConfusion hp
    · rw [hyt] at hp; exact Platform.noConfusion hp
    · rw [hyt] at hp; exact Platform.noConfusion hp

/-- Witness for C10: a concrete vm.tiktok short link is accepted with
`video_id = None`, and the matched pattern is id-less pattern 6. -/
theorem claim_C10_video_id_witness :
    matchedIndex PLATFORM_PATTERNS
        (pyStrip "https://vm.tiktok.com/ZMNk".data) = some 6 ∨
    matchedIndex PLATFORM_PATTERNS
        (pyStrip "https://vm.tiktok.com/ZMNk".data) = some 9 :=
  ((claim_C10_video_id "https://vm.tiktok.com/ZMNk".data
      ⟨.tiktok, "https://vm.tiktok.com/ZMNk".data, none⟩ (by rfl)).1.1).mp rfl

/-!
## `transcript.py`: the SRT/VTT subtitle parser

The parser works line by line.  `str.splitlines` is modelled for the line
terminators `\n`, `\r` and `\r\n` (the inputs of interest contain no other
terminator characters); as in Python, a trailing terminator produces no extra
empty line.  The regular expressions of the module are embedded as direct
matchers:
* `_SRT_SEQUENCE_RE` (`^\d+\s*$`, used with `re.match`): a nonempty leading
  digit run followed by whitespace only (reducing the greedy `\d+` leaves a
  digit for `\s*`, which fails, so no backtracking case remains);
* `_TIMESTAMP_LINE_RE` (`(\d{1,2}:\d{2}:\d{2}[.,]\d{3})\s*-->\s*(...)`, used
  with `re.search`): leftmost match; the only backtracking point is the
  greedy `\d{1,2}`, and when two digits followed by `:` succeed the one-digit
  alternative at the same start cannot (its next character is a digit, not
  `:`), so trying two digits first and falling back to one is exact.  The
  `\s*` runs must stop exactly at the maximal whitespace run because the
  following literal is not whitespace;
* `_VTT_TIMESTAMP_TAG_RE` (`<\d{2}:\d{2}:\d{2}\.\d{3}>`) and `_HTML_TAG_RE`
  (`<[^>]+>`) under `re.sub`: leftmost non-overlapping matches removed.  The
  HTML scrub is written as a one-pass state machine (`subHtmlAux`): `tag =
  some buf` means a `<` was seen and `buf` holds the (reversed) characters
  read since; a `>` with nonempty `buf` completes a match, a `>` right after
  `<` fails it (`[^>]+` needs at least one character), and end of input with
  an open tag emits the buffered text verbatim (with no later `>` no later
  tag can match either).

The two nested `while` loops of `parse_subtitles` become one structural pass
(`parseLoopM`) over the line list: `mode = none` is the outer scan loop,
`mode = some (start, end, partsRev)` is the inner text-collection loop with
the pending cue's timestamps and collected (reversed) text parts.  A line is
classified once (`classify`): the guard sets of the two loops — blank or
sequence line to skip / timestamp line to open — are literally the break set
of the inner loop, and the three predicates are mutually exclusive, so the
fused step function performs exactly the source's transitions, finishing the
pending cue (discard empty text, else merge-or-append) where the source
re-examines the breaking line in the outer loop.  The accumulator is kept
reversed (head = most recently kept segment, Python's `segments[-1]`).
-/

/-- One step of `str.splitlines` (terminators `\n`, `\r`, `\r\n`); `acc` holds
the current line reversed.  At end of input the pending line is emitted only
if the input did not end at a terminator (Python emits no trailing empty
line). -/
def splitLinesAux (sawCR : Bool) (acc : Str) : Str → List Str
  | [] => if acc.isEmpty then [] else [acc.reverse]
  | c :: rest =>
    if c = '\n' then
      if sawCR then splitLinesAux false acc rest
      else acc.reverse :: splitLinesAux false [] rest
    else if c = '\r' then acc.reverse :: splitLinesAux true [] rest
    else splitLinesAux false (c :: acc) rest

/-- `raw.splitlines()`.  `sawCR` marks that the previous character was `\r`,
so a following `\n` is the second half of a `\r\n` terminator and produces no
extra line. -/
def splitLines (s : Str) : List Str := splitLinesAux false [] s

/-- `_SRT_SEQUENCE_RE.match(line)` is truthy: `^\d+\s*$`. -/
def seqLineB (l : Str) : Bool :=
  !(l.takeWhile Char.isDigit).isEmpty &&
    (l.dropWhile Char.isDigit).all Char.isWhitespace

/-- The fixed tail `\d{2}:\d{2}[.,]\d{3}` of a timestamp, returning the
matched characters and the remainder. -/
def tsAfterColon : Str → Option (Str × Str)
  | c :: d :: ':' :: e :: f :: p :: g :: h :: i :: rest =>
    if c.isDigit && d.isDigit && e.isDigit && f.isDigit &&
       (p = '.' || p = ',') && g.isDigit && h.isDigit && i.isDigit then
      some ([c, d, ':', e, f, p, g, h, i], rest)
    else none
  | _ => none

/-- A timestamp with a one-digit hour field: `\d:\d{2}:\d{2}[.,]\d{3}`. -/
def tsOne : Str → Option (Str × Str)
  | a :: ':' :: rest =>
    if a.isDigit then
      match tsAfterColon rest with
      | some (t, r) => some (a :: ':' :: t, r)
      | none => none
    else none
  | _ => none

/-- A timestamp with a two-digit hour field: `\d\d:\d{2}:\d{2}[.,]\d{3}`. -/
def tsTwo : Str → Option (Str × Str)
  | a :: b :: ':' :: rest =>
    if a.isDigit && b.isDigit then
      match tsAfterColon rest with
      | some (t, r) => some (a :: b :: ':' :: t, r)
      | none => none
    else none
  | _ => none

/-- `\d{1,2}:\d{2}:\d{2}[.,]\d{3}` at the start of the input: the greedy
two-digit hour is tried first, then the one-digit fallback. -/
def tsCore (s : Str) : Option (Str × Str) :=
  match tsTwo s with
  | some r => some r
  | none => tsOne s

/-- `_TIMESTAMP_LINE_RE` anchored at the start of the input: timestamp,
`\s*-->\s*`, timestamp; returns the two captured groups. -/
def tsRangeAt (s : Str) : Option (Str × Str) :=
  match tsCore s with
  | none => none
  | some (t1, r1) =>
    match r1.dropWhile Char.isWhitespace with
    | '-' :: '-' :: '>' :: r3 =>
      match tsCore (r3.dropWhile Char.isWhitespace) with
      | none => none
      | some (t2, _) => some (t1, t2)
    | _ => none

/-- `_TIMESTAMP_LINE_RE.search(line)`: leftmost match. -/
def tsSearch : Str → Option (Str × Str)
  | [] => none
  | c :: rest =>
    match tsRangeAt (c :: rest) with
    | some r => some r
    | none => tsSearch rest

/-- `str.split(sep)` for a one-character separator (empty chunks kept,
`"".split(sep) == [""]`). -/
def splitOnCharAux (sep : Char) (acc : Str) : Str → List Str
  | [] => [acc.reverse]
  | c :: rest =>
    if c = sep then acc.reverse :: splitOnCharAux sep [] rest
    else splitOnCharAux sep (c :: acc) rest

def splitOnChar (sep : Char) (s : Str) : List Str := splitOnCharAux sep [] s

/-- `int(s)` on a digit string (the only calls are on regex captures made of
digits). -/
def intOf (s : Str) : ℚ := s.foldl (fun a c => a * 10 + ((c.toNat - 48 : ℕ) : ℚ)) 0

/-- `float(s)` on `digits` or `digits.digits` (the shapes the captures take),
as an exact rational. -/
def floatOf (s : Str) : ℚ :=
  match splitOnChar '.' s with
  | [w] => intOf w
  | [w, f] => intOf w + intOf f / 10 ^ f.length
  | _ => 0

/-- `.replace(",", ".")`, characterwise. -/
def commaDot (c : Char) : Char := if c = ',' then '.' else c

/-- `transcript._parse_timestamp`. -/
def pyParseTimestamp (ts : Str) : ℚ :=
  match splitOnChar ':' ((pyStrip ts).map commaDot) with
  | [h, m, s] => intOf h * 3600 + intOf m * 60 + floatOf s
  | [m, s] => intOf m * 60 + floatOf s
  | _ => 0

/-- Character class of position `k` (1-based past the `<`) in the fixed
14-character shape `<\d{2}:\d{2}:\d{2}\.\d{3}>`. -/
def vttNext (k : Nat) (c : Char) : Bool :=
  if k = 3 || k = 6 then c = ':'
  else if k = 9 then c = '.'
  else if k = 13 then c = '>'
  else c.isDigit

/-- `_VTT_TIMESTAMP_TAG_RE.sub("", text)`: remove every
`<\d{2}:\d{2}:\d{2}\.\d{3}>`, scanning left to right, as a one-pass state
machine.  `cand = some buf` holds a reversed partial match (starting with
`<`).  The shape is deterministic and its interior characters (digits, `:`,
`.`) never include `<`, so when the current character breaks the candidate
the buffered text can be emitted verbatim and scanning resumes at the
current character — exactly `re.sub`'s leftmost non-overlapping behaviour. -/
def subVttAux (cand : Option Str) : Str → Str
  | [] =>
    match cand with
    | none => []
    | some buf => buf.reverse
  | c :: rest =>
    match cand with
    | none => if c = '<' then subVttAux (some ['<']) rest else c :: subVttAux none rest
    | some buf =>
      if vttNext buf.length c then
        if buf.length = 13 then subVttAux none rest
        else subVttAux (some (c :: buf)) rest
      else
        buf.reverse ++
          (if c = '<' then subVttAux (some ['<']) rest else c :: subVttAux none rest)

def subVtt (s : Str) : Str := subVttAux none s

/-- `_HTML_TAG_RE.sub("", text)` (`<[^>]+>`) as a one-pass state machine; see
the section comment for why this matches leftmost non-overlapping `re.sub`. -/
def subHtmlAux (tag : Option Str) : Str → Str
  | [] =>
    match tag with
    | none => []
    | some buf => '<' :: buf.reverse
  | c :: rest =>
    match tag with
    | none => if c = '<' then subHtmlAux (some []) rest else c :: subHtmlAux none rest
    | some buf =>
      if c = '>' then
        if buf.isEmpty then '<' :: '>' :: subHtmlAux none rest
        else subHtmlAux none rest
      else subHtmlAux (some (c :: buf)) rest

def subHtml (s : Str) : Str := subHtmlAux none s

/-- `transcript._clean_text`: VTT-tag scrub, then HTML-tag scrub, then
`strip()`. -/
def cleanText (t : Str) : Str := pyStrip (subHtml (subVtt t))

/-- `models.TranscriptSegment` / the dicts built by `parse_subtitles`; the
Python `end` field is named `stop` (`end` is reserved). -/
structure TranscriptSegment where
  start : ℚ
  stop : ℚ
  text : Str
deriving DecidableEq

/-- How one (stripped) line steers `parse_subtitles`: blank, SRT sequence
number, timestamp line (with its two captures), or ordinary text.  The three
non-text cases are mutually exclusive (a sequence line is digits plus
whitespace, a timestamp match needs `:`), so testing them in this order is
equivalent to both orders used in the source. -/
inductive LineClass : Type
  | blank : LineClass
  | seq : LineClass
  | cue : Str → Str → LineClass
  | text : LineClass
deriving DecidableEq

def classify (l : Str) : LineClass :=
  if l.isEmpty then .blank
  else if seqLineB l then .seq
  else
    match tsSearch l with
    | some (t1, t2) => .cue t1 t2
    | none => .text

/-- `" ".join(text_parts)` (the parts are collected reversed). -/
def cueText (partsRev : List Str) : Str := List.intercalate [' '] partsRev.reverse

/-- The merge-or-append step on the reversed segment list (head =
`segments[-1]`): identical text extends the previous segment's end, otherwise
a new segment is appended. -/
def mergeStepRev (accRev : List TranscriptSegment) (s e : ℚ) (t : Str) :
    List TranscriptSegment :=
  match accRev with
  | prev :: tl =>
    if prev.text = t then ⟨prev.start, e, prev.text⟩ :: tl
    else ⟨s, e, t⟩ :: prev :: tl
  | [] => [⟨s, e, t⟩]

/-- Complete a pending cue: `if not text: continue`, else merge-or-append. -/
def finishCue (accRev : List TranscriptSegment) (s e : ℚ) (partsRev : List Str) :
    List TranscriptSegment :=
  if cueText partsRev = [] then accRev else mergeStepRev accRev s e (cueText partsRev)

/-- The fused scan/collect loop of `parse_subtitles` (see the section
comment).  `mode = none`: scanning for a timestamp line; `mode = some (s, e,
partsRev)`: collecting text for the cue `s --> e`. -/
def parseLoopM (accRev : List TranscriptSegment) (mode : Option (ℚ × ℚ × List Str)) :
    List Str → List TranscriptSegment
  | [] =>
    match mode with
    | none => accRev
    | some (s, e, partsRev) => finishCue accRev s e partsRev
  | l :: rest =>
    match mode, classify (pyStrip l) with
    | none, .blank => parseLoopM accRev none rest
    | none, .seq => parseLoopM accRev none rest
    | none, .text => parseLoopM accRev none rest
    | none, .cue t1 t2 =>
      parseLoopM accRev (some (pyParseTimestamp t1, pyParseTimestamp t2, [])) rest
    | some (s, e, p), .blank => parseLoopM (finishCue accRev s e p) none rest
    | some (s, e, p), .seq => parseLoopM (finishCue accRev s e p) none rest
    | some (s, e, p), .cue t1 t2 =>
      parseLoopM (finishCue accRev s e p)
        (some (pyParseTimestamp t1, pyParseTimestamp t2, [])) rest
    | some (s, e, p), .text =>
      parseLoopM accRev
        (some (s, e,
          if (cleanText (pyStrip l)).isEmpty then p else cleanText (pyStrip l) :: p))
        rest

/-- The `WEBVTT` header skip: if the first line (stripped) starts with
`WEBVTT`, drop it and every following nonblank line. -/
def skipHeader (lines : List Str) : List Str :=
  match lines with
  | [] => []
  | l0 :: rest =>
    if ("WEBVTT".data).isPrefixOf (pyStrip l0) then
      rest.dropWhile (fun l => !(pyStrip l).isEmpty)
    else l0 :: rest

/-- `transcript.parse_subtitles`. -/
def parse_subtitles (raw : Str) : List TranscriptSegment :=
  if raw.isEmpty then []
  else (parseLoopM [] none (skipHeader (splitLines raw))).reverse

/-! Evaluation helpers: `intOf` mirrored over `ℕ` (kernel-computable), and
closed forms for `pyParseTimestamp` on three- and two-part timestamps. -/

def intOfN (s : Str) : ℕ := s.foldl (fun a c => a * 10 + (c.toNat - 48)) 0

theorem intOf_foldl_cast (s : Str) : ∀ a : ℕ,
    s.foldl (fun x c => x * 10 + ((c.toNat - 48 : ℕ) : ℚ)) (a : ℚ)
      = ((s.foldl (fun x c => x * 10 + (c.toNat - 48)) a : ℕ) : ℚ) := by
  induction s with
  | nil => intro a; rfl
  | cons c rest ih =>
    intro a
    show rest.foldl _ ((a : ℚ) * 10 + ((c.toNat - 48 : ℕ) : ℚ)) = _
    rw [show (a : ℚ) * 10 + ((c.toNat - 48 : ℕ) : ℚ)
          = ((a * 10 + (c.toNat - 48) : ℕ) : ℚ) by push_cast; ring]
    exact ih (a * 10 + (c.toNat - 48))

theorem intOf_eq (s : Str) : intOf s = (intOfN s : ℚ) := by
  unfold intOf intOfN
  simpa using intOf_foldl_cast s 0

theorem pyParseTimestamp_eval3 (ts hh mm ss s1 s2 : Str)
    (h1 : splitOnChar ':' ((pyStrip ts).map commaDot) = [hh, mm, ss])
    (h2 : splitOnChar '.' ss = [s1, s2]) :
    pyParseTimestamp ts
      = (intOfN hh : ℚ) * 3600 + (intOfN mm : ℚ) * 60
        + ((intOfN s1 : ℚ) + (intOfN s2 : ℚ) / 10 ^ s2.length) := by
  unfold pyParseTimestamp
  rw [h1]
  dsimp only
  unfold floatOf
  rw [h2]
  dsimp only
  rw [intOf_eq, intOf_eq, intOf_eq, intOf_eq]

theorem pyParseTimestamp_eval2 (ts mm ss s1 s2 : Str)
    (h1 : splitOnChar ':' ((pyStrip ts).map commaDot) = [mm, ss])
    (h2 : splitOnChar '.' ss = [s1, s2]) :
    pyParseTimestamp ts
      = (intOfN mm : ℚ) * 60 + ((intOfN s1 : ℚ) + (intOfN s2 : ℚ) / 10 ^ s2.length) := by
  unfold pyParseTimestamp
  rw [h1]
  dsimp only
  unfold floatOf
  rw [h2]
  dsimp only
  rw [intOf_eq, intOf_eq, intOf_eq]

theorem ppt_v01 : pyParseTimestamp ("00:00:01.000".data) = 1 := by
  rw [pyParseTimestamp_eval3 _ ("00".data) ("00".data) ("01.000".data) ("01".data) ("000".data)
      (by decide) (by decide),
    show intOfN ("00".data) = 0 from by decide, show intOfN ("01".data) = 1 from by decide,
    show intOfN ("000".data) = 0 from by decide, show ("000".data).length = 3 from by decide]
  norm_num

theorem ppt_v04 : pyParseTimestamp ("00:00:04.000".data) = 4 := by
  rw [pyParseTimestamp_eval3 _ ("00".data) ("00".data) ("04.000".data) ("04".data) ("000".data)
      (by decide) (by decide),
    show intOfN ("00".data) = 0 from by decide, show intOfN ("04".data) = 4 from by decide,
    show intOfN ("000".data) = 0 from by decide, show ("000".data).length = 3 from by decide]
  norm_num

theorem ppt_v08 : pyParseTimestamp ("00:00:08.000".data) = 8 := by
  rw [pyParseTimestamp_eval3 _ ("00".data) ("00".data) ("08.000".data) ("08".data) ("000".data)
      (by decide) (by decide),
    show intOfN ("00".data) = 0 from by decide, show intOfN ("08".data) = 8 from by decide,
    show intOfN ("000".data) = 0 from by decide, show ("000".data).length = 3 from by decide]
  norm_num

theorem ppt_v12 : pyParseTimestamp ("00:00:12.000".data) = 12 := by
  rw [pyParseTimestamp_eval3 _ ("00".data) ("00".data) ("12.000".data) ("12".data) ("000".data)
      (by decide) (by decide),
    show intOfN ("00".data) = 0 from by decide, show intOfN ("12".data) = 12 from by decide,
    show intOfN ("000".data) = 0 from by decide, show ("000".data).length = 3 from by decide]
  norm_num

theorem ppt_v05 : pyParseTimestamp ("00:00:05.000".data) = 5 := by
  rw [pyParseTimestamp_eval3 _ ("00".data) ("00".data) ("05.000".data) ("05".data) ("000".data)
      (by decide) (by decide),
    show intOfN ("00".data) = 0 from by decide, show intOfN ("05".data) = 5 from by decide,
    show intOfN ("000".data) = 0 from by decide, show ("000".data).length = 3 from by decide]
  norm_num

theorem ppt_c01 : pyParseTimestamp ("00:00:01,000".data) = 1 := by
  rw [pyParseTimestamp_eval3 _ ("00".data) ("00".data) ("01.000".data) ("01".data) ("000".data)
      (by decide) (by decide),
    show intOfN ("00".data) = 0 from by decide, show intOfN ("01".data) = 1 from by decide,
    show intOfN ("000".data) = 0 from by decide, show ("000".data).length = 3 from by decide]
  norm_num

theorem ppt_c025 : pyParseTimestamp ("00:00:02,500".data) = 5 / 2 := by
  rw [pyParseTimestamp_eval3 _ ("00".data) ("00".data) ("02.500".data) ("02".data) ("500".data)
      (by decide) (by decide),
    show intOfN ("00".data) = 0 from by decide, show intOfN ("02".data) = 2 from by decide,
    show intOfN ("500".data) = 500 from by decide, show ("500".data).length = 3 from by decide]
  norm_num

theorem ppt_mmss : pyParseTimestamp ("01:02.500".data) = 125 / 2 := by
  rw [pyParseTimestamp_eval2 _ ("01".data) ("02.500".data) ("02".data) ("500".data)
      (by decide) (by decide),
    show intOfN ("01".data) = 1 from by decide, show intOfN ("02".data) = 2 from by decide,
    show intOfN ("500".data) = 500 from by decide, show ("500".data).length = 3 from by decide]
  norm_num

/-! Invariant: every kept segment has nonempty text (a cue whose joined text
is empty is discarded, and merging preserves the previous text). -/

theorem mergeStepRev_text_inv (acc : List TranscriptSegment) (s e : ℚ) (t : Str)
    (hacc : ∀ seg ∈ acc, seg.text ≠ []) (ht : t ≠ []) :
    ∀ seg ∈ mergeStepRev acc s e t, seg.text ≠ [] := by
  intro seg hseg
  cases acc with
  | nil =>
    simp only [mergeStepRev, List.mem_singleton] at hseg
    subst hseg; exact ht
  | cons prev tl =>
    unfold mergeStepRev at hseg
    dsimp only at hseg
    by_cases hp : prev.text = t
    · rw [if_pos hp] at hseg
      rcases List.mem_cons.mp hseg with h | h
      · subst h; exact hacc prev (List.mem_cons_self prev tl)
      · exact hacc seg (List.mem_cons_of_mem _ h)
    · rw [if_neg hp] at hseg
      rcases List.mem_cons.mp hseg with h | h
      · subst h; exact ht
      · exact hacc seg h

theorem finishCue_text_inv (acc : List TranscriptSegment) (s e : ℚ) (p : List Str)
    (hacc : ∀ seg ∈ acc, seg.text ≠ []) :
    ∀ seg ∈ finishCue acc s e p, seg.text ≠ [] := by
  unfold finishCue
  by_cases h : cueText p = []
  · rw [if_pos h]; exact hacc
  · rw [if_neg h]; exact mergeStepRev_text_inv _ _ _ _ hacc h

theorem parseLoopM_text_inv :
    ∀ (lines : List Str) (acc : List TranscriptSegment)
      (mode : Option (ℚ × ℚ × List Str)),
      (∀ seg ∈ acc, seg.text ≠ []) →
      ∀ seg ∈ parseLoopM acc mode lines, seg.text ≠ [] := by
  intro lines
  induction lines with
  | nil =>
    intro acc mode hacc
    cases mode with
    | none => exact hacc
    | some m =>
      obtain ⟨s, e, p⟩ := m
      exact finishCue_text_inv _ _ _ _ hacc
  | cons l rest ih =>
    intro acc mode hacc seg hseg
    rw [parseLoopM.eq_def] at hseg
    dsimp only at hseg
    split at hseg
    · exact ih _ _ hacc seg hseg
    · exact ih _ _ hacc seg hseg
    · exact ih _ _ hacc seg hseg
    · exact ih _ _ hacc seg hseg
    · exact ih _ _ (finishCue_text_inv _ _ _ _ hacc) seg hseg
    · exact ih _ _ (finishCue_text_inv _ _ _ _ hacc) seg hseg
    · exact ih _ _ (finishCue_text_inv _ _ _ _ hacc) seg hseg
    · exact ih _ _ hacc seg hseg

/-- C7 counterexample: the parser copies the two timestamps of a cue without
comparing them, so a cue `00:00:05.000 --> 00:00:01.000` yields a segment
with `start = 5 > 1 = end`, refuting the claimed `start ≤ end` invariant. -/
theorem claim_C7_counterexample :
    parse_subtitles ("00:00:05.000 --> 00:00:01.000\nhi".data)
        = [⟨5, 1, "hi".data⟩]
      ∧ ¬ ((5 : ℚ) ≤ 1) := by
  constructor
  · have h : parse_subtitles ("00:00:05.000 --> 00:00:01.000\nhi".data)
        = [⟨pyParseTimestamp ("00:00:05.000".data),
            pyParseTimestamp ("00:00:01.000".data), "hi".data⟩] := rfl
    rw [h, ppt_v05, ppt_v01]
  · norm_num

/-- C7 (amended): every segment produced by `parse_subtitles` has nonempty
text.  (The `start ≤ end` half of the claim fails, see
`claim_C7_counterexample`.) -/
theorem claim_C7_segment_text (raw : Str) (seg : TranscriptSegment)
    (h : seg ∈ parse_subtitles raw) : seg.text ≠ [] := by
  unfold parse_subtitles at h
  by_cases hr : raw.isEmpty
  · rw [if_pos hr] at h
    simp at h
  · rw [if_neg hr] at h
    rw [List.mem_reverse] at h
    exact parseLoopM_text_inv _ _ _ (by simp) seg h

/-- Witness for C7: a concrete SRT cue whose kept segment has text
`"hi there"`, which is nonempty. -/
theorem claim_C7_segment_text_witness :
    (⟨1, 5 / 2, "hi there".data⟩ : TranscriptSegment) ∈
        parse_subtitles
          ("1\n00:00:01,000 --> 00:00:02,500\n<i>hi</i> <00:00:01.500>there".data)
      ∧ ("hi there".data : Str) ≠ [] := by
  have h : parse_subtitles
        ("1\n00:00:01,000 --> 00:00:02,500\n<i>hi</i> <00:00:01.500>there".data)
      = [⟨pyParseTimestamp ("00:00:01,000".data),
          pyParseTimestamp ("00:00:02,500".data), "hi there".data⟩] := rfl
  rw [ppt_c01, ppt_c025] at h
  have hmem : (⟨1, 5 / 2, "hi there".data⟩ : TranscriptSegment) ∈
      parse_subtitles
        ("1\n00:00:01,000 --> 00:00:02,500\n<i>hi</i> <00:00:01.500>there".data) := by
    rw [h]; exact List.mem_singleton.mpr rfl
  exact ⟨hmem, claim_C7_segment_text _ _ hmem⟩

/-- C8: the spec says the hours field of a timestamp-range line is optional,
and `_parse_timestamp` indeed computes `minutes*60 + seconds` for a two-part
timestamp (with a comma as decimal point), but `_TIMESTAMP_LINE_RE` requires
the hours field, so a cue of the form `MM:SS[.,]mmm --> MM:SS[.,]mmm` opens
no segment at all: the code contradicts the claimed behaviour. -/
theorem claim_C8_hours_optional :
    parse_subtitles ("01:02.500 --> 01:05.000\nhello".data) = []
      ∧ tsSearch (pyStrip ("01:02.500 --> 01:05.000".data)) = none
      ∧ pyParseTimestamp ("01:02.500".data) = 125 / 2 :=
  ⟨rfl, by decide, ppt_mmss⟩

/-! Invariant: adjacent kept segments have distinct texts (the merge rule
extends instead of appending a duplicate). -/

theorem mergeStepRev_chain (acc : List TranscriptSegment) (s e : ℚ) (t : Str)
    (h : acc.Chain' (fun a b => a.text ≠ b.text)) :
    (mergeStepRev acc s e t).Chain' (fun a b => a.text ≠ b.text) := by
  cases acc with
  | nil => simp [mergeStepRev]
  | cons prev tl =>
    unfold mergeStepRev
    dsimp only
    by_cases hp : prev.text = t
    · rw [if_pos hp]
      cases tl with
      | nil => simp
      | cons b tl2 =>
        rw [List.chain'_cons] at h ⊢
        exact ⟨h.1, h.2⟩
    · rw [if_neg hp]
      rw [List.chain'_cons]
      exact ⟨fun hh => hp hh.symm, h⟩

theorem finishCue_chain (acc : List TranscriptSegment) (s e : ℚ) (p : List Str)
    (h : acc.Chain' (fun a b => a.text ≠ b.text)) :
    (finishCue acc s e p).Chain' (fun a b => a.text ≠ b.text) := by
  unfold finishCue
  by_cases hc : cueText p = []
  · rw [if_pos hc]; exact h
  · rw [if_neg hc]; exact mergeStepRev_chain _ _ _ _ h

theorem parseLoopM_chain :
    ∀ (lines : List Str) (acc : List TranscriptSegment)
      (mode : Option (ℚ × ℚ × List Str)),
      acc.Chain' (fun a b => a.text ≠ b.text) →
      (parseLoopM acc mode lines).Chain' (fun a b => a.text ≠ b.text) := by
  intro lines
  induction lines with
  | nil =>
    intro acc mode h
    cases mode with
    | none => exact h
    | some m =>
      obtain ⟨s, e, p⟩ := m
      exact finishCue_chain _ _ _ _ h
  | cons l rest ih =>
    intro acc mode h
    rw [parseLoopM.eq_def]
    dsimp only
    split
    · exact ih _ _ h
    · exact ih _ _ h
    · exact ih _ _ h
    · exact ih _ _ h
    · exact ih _ _ (finishCue_chain _ _ _ _ h)
    · exact ih _ _ (finishCue_chain _ _ _ _ h)
    · exact ih _ _ (finishCue_chain _ _ _ _ h)
    · exact ih _ _ h

/-! Composing `splitLines` over newline-joined pieces, and single-step
unfoldings of `parseLoopM` used to run the parser on a symbolic cue block. -/

theorem isEmpty_false_of_ne {l : Str} (h : l ≠ []) : l.isEmpty = false := by
  cases l with
  | nil => exact absurd rfl h
  | cons c t => rfl

theorem isEmpty_append_left {a : Str} (b : Str) (h : a ≠ []) :
    (a ++ b).isEmpty = false := by
  cases a with
  | nil => exact absurd rfl h
  | cons c t => rfl

theorem splitLinesAux_cons_other (sawCR : Bool) (acc : Str) (c : Char) (rest : Str)
    (h1 : c ≠ '\n') (h2 : c ≠ '\r') :
    splitLinesAux sawCR acc (c :: rest) = splitLinesAux false (c :: acc) rest := by
  rw [splitLinesAux]
  rw [if_neg h1, if_neg h2]

theorem splitLinesAux_lf (acc rest : Str) :
    splitLinesAux false acc ('\n' :: rest) = acc.reverse :: splitLinesAux false [] rest := by
  rw [splitLinesAux]
  rw [if_pos rfl, if_neg (by decide)]

theorem splitLinesAux_append (a : Str) (ha : ∀ c ∈ a, c ≠ '\n' ∧ c ≠ '\r') :
    ∀ acc rest, splitLinesAux false acc (a ++ '\n' :: rest)
      = (acc.reverse ++ a) :: splitLinesAux false [] rest := by
  induction a with
  | nil =>
    intro acc rest
    rw [List.nil_append, splitLinesAux_lf, List.append_nil]
  | cons c t ih =>
    intro acc rest
    have hc := ha c (List.mem_cons_self c t)
    rw [List.cons_append, splitLinesAux_cons_other false acc c _ hc.1 hc.2,
      ih (fun x hx => ha x (List.mem_cons_of_mem _ hx)) (c :: acc) rest]
    simp

theorem splitLinesAux_last (a : Str) (ha : ∀ c ∈ a, c ≠ '\n' ∧ c ≠ '\r') :
    ∀ acc, acc.reverse ++ a ≠ [] → splitLinesAux false acc a = [acc.reverse ++ a] := by
  induction a with
  | nil =>
    intro acc h
    rw [List.append_nil] at h
    rw [splitLinesAux]
    rw [if_neg (by rw [isEmpty_false_of_ne (fun hh => h (by rw [hh]; rfl))]; decide),
      List.append_nil]
  | cons c t ih =>
    intro acc h
    have hc := ha c (List.mem_cons_self c t)
    rw [splitLinesAux_cons_other false acc c _ hc.1 hc.2,
      ih (fun x hx => ha x (List.mem_cons_of_mem _ hx)) (c :: acc) (by simp)]
    simp

theorem classify_text (l : Str) (hb : pyStrip l ≠ [])
    (hsq : seqLineB (pyStrip l) = false) (hts : tsSearch (pyStrip l) = none) :
    classify (pyStrip l) = .text := by
  unfold classify
  rw [if_neg (by rw [isEmpty_false_of_ne hb]; decide),
    if_neg (by rw [hsq]; decide), hts]

theorem cueText_single (t : Str) : cueText [t] = t := by
  simp [cueText, List.intercalate]

theorem parseLoopM_scan_cue (acc : List TranscriptSegment) (l : Str)
    (rest : List Str) (t1 t2 : Str) (h : classify (pyStrip l) = .cue t1 t2) :
    parseLoopM acc none (l :: rest)
      = parseLoopM acc (some (pyParseTimestamp t1, pyParseTimestamp t2, [])) rest := by
  rw [parseLoopM.eq_def]
  dsimp only
  rw [h]

theorem parseLoopM_collect_text (acc : List TranscriptSegment) (s e : ℚ)
    (p : List Str) (l : Str) (rest : List Str) (h : classify (pyStrip l) = .text) :
    parseLoopM acc (some (s, e, p)) (l :: rest)
      = parseLoopM acc
          (some (s, e,
            if (cleanText (pyStrip l)).isEmpty then p else cleanText (pyStrip l) :: p))
          rest := by
  rw [parseLoopM.eq_def]
  dsimp only
  rw [h]

theorem parseLoopM_collect_cue (acc : List TranscriptSegment) (s e : ℚ)
    (p : List Str) (l : Str) (rest : List Str) (t1 t2 : Str)
    (h : classify (pyStrip l) = .cue t1 t2) :
    parseLoopM acc (some (s, e, p)) (l :: rest)
      = parseLoopM (finishCue acc s e p)
          (some (pyParseTimestamp t1, pyParseTimestamp t2, [])) rest := by
  rw [parseLoopM.eq_def]
  dsimp only
  rw [h]

/-- The three fixed timestamp lines of the C6 cue family. -/
def cueLine1 : Str := "00:00:01.000 --> 00:00:04.000".data

def cueLine2 : Str := "00:00:04.000 --> 00:00:08.000".data

def cueLine3 : Str := "00:00:08.000 --> 00:00:12.000".data

/-- Three consecutive cues (1s–4s, 4s–8s, 8s–12s) with text lines `l1`, `l2`,
`l3`, in SRT layout. -/
def cue3raw (l1 l2 l3 : Str) : Str :=
  cueLine1 ++ '\n' ::
    (l1 ++ '\n' :: (cueLine2 ++ '\n' :: (l2 ++ '\n' :: (cueLine3 ++ '\n' :: l3))))

theorem splitLines_cue3 (l1 l2 l3 : Str)
    (h1 : ∀ c ∈ l1, c ≠ '\n' ∧ c ≠ '\r') (h2 : ∀ c ∈ l2, c ≠ '\n' ∧ c ≠ '\r')
    (h3 : ∀ c ∈ l3, c ≠ '\n' ∧ c ≠ '\r') (h3ne : l3 ≠ []) :
    splitLines (cue3raw l1 l2 l3) = [cueLine1, l1, cueLine2, l2, cueLine3, l3] := by
  unfold splitLines cue3raw
  rw [splitLinesAux_append cueLine1 (by decide) [] _,
    splitLinesAux_append l1 h1 [] _,
    splitLinesAux_append cueLine2 (by decide) [] _,
    splitLinesAux_append l2 h2 [] _,
    splitLinesAux_append cueLine3 (by decide) [] _,
    splitLinesAux_last l3 h3 [] (by simpa using h3ne)]
  simp

/-- C6: (1) in every parse result adjacent segments carry distinct texts —
a newly completed segment whose text equals the previous kept segment's text
never appears as a separate entry; (2) for any three consecutive cues whose
first two text lines clean to the same nonempty text and whose third cleans
to a different nonempty text, parsing yields exactly two segments, the first
spanning from the first cue's start (1s) to the second cue's end (8s). -/
theorem claim_C6_merge_rule :
    (∀ raw : Str, (parse_subtitles raw).Chain' (fun a b => a.text ≠ b.text)) ∧
    (∀ l1 l2 l3 c1 c3 : Str,
      (∀ c ∈ l1, c ≠ '\n' ∧ c ≠ '\r') → (∀ c ∈ l2, c ≠ '\n' ∧ c ≠ '\r') →
      (∀ c ∈ l3, c ≠ '\n' ∧ c ≠ '\r') →
      pyStrip l1 ≠ [] → pyStrip l2 ≠ [] → pyStrip l3 ≠ [] →
      seqLineB (pyStrip l1) = false → seqLineB (pyStrip l2) = false →
      seqLineB (pyStrip l3) = false →
      tsSearch (pyStrip l1) = none → tsSearch (pyStrip l2) = none →
      tsSearch (pyStrip l3) = none →
      cleanText (pyStrip l1) = c1 → cleanText (pyStrip l2) = c1 →
      cleanText (pyStrip l3) = c3 →
      c1 ≠ [] → c3 ≠ [] → c3 ≠ c1 →
      parse_subtitles (cue3raw l1 l2 l3) = [⟨1, 8, c1⟩, ⟨8, 12, c3⟩]) := by
  constructor
  · intro raw
    unfold parse_subtitles
    by_cases hr : raw.isEmpty
    · rw [if_pos hr]; simp
    · rw [if_neg hr]
      rw [List.chain'_reverse]
      exact List.Chain'.imp (fun a b h => h.symm)
        (parseLoopM_chain _ _ _ List.chain'_nil)
  · intro l1 l2 l3 c1 c3 hnl1 hnl2 hnl3 hb1 hb2 hb3 hsq1 hsq2 hsq3
      hts1 hts2 hts3 hcl1 hcl2 hcl3 hc1ne hc3ne hne
    have hl3ne : l3 ≠ [] := fun h => hb3 (by rw [h]; rfl)
    have hck1 : classify (pyStrip cueLine1)
        = .cue ("00:00:01.000".data) ("00:00:04.000".data) := by decide
    have hck2 : classify (pyStrip cueLine2)
        = .cue ("00:00:04.000".data) ("00:00:08.000".data) := by decide
    have hck3 : classify (pyStrip cueLine3)
        = .cue ("00:00:08.000".data) ("00:00:12.000".data) := by decide
    have htx1 := classify_text l1 hb1 hsq1 hts1
    have htx2 := classify_text l2 hb2 hsq2 hts2
    have htx3 := classify_text l3 hb3 hsq3 hts3
    have hif1 : (if (cleanText (pyStrip l1)).isEmpty then ([] : List Str)
        else cleanText (pyStrip l1) :: []) = [c1] := by
      rw [hcl1, isEmpty_false_of_ne hc1ne]
      rfl
    have hif2 : (if (cleanText (pyStrip l2)).isEmpty then ([] : List Str)
        else cleanText (pyStrip l2) :: []) = [c1] := by
      rw [hcl2, isEmpty_false_of_ne hc1ne]
      rfl
    have hif3 : (if (cleanText (pyStrip l3)).isEmpty then ([] : List Str)
        else cleanText (pyStrip l3) :: []) = [c3] := by
      rw [hcl3, isEmpty_false_of_ne hc3ne]
      rfl
    have hfc1 : finishCue [] (1 : ℚ) 4 [c1] = [⟨1, 4, c1⟩] := by
      unfold finishCue
      rw [cueText_single, if_neg hc1ne]
      rfl
    have hfc2 : finishCue [⟨1, 4, c1⟩] (4 : ℚ) 8 [c1] = [⟨1, 8, c1⟩] := by
      unfold finishCue
      rw [cueText_single, if_neg hc1ne]
      unfold mergeStepRev
      dsimp only
      rw [if_pos rfl]
    have hfc3 : finishCue [⟨1, 8, c1⟩] (8 : ℚ) 12 [c3]
        = [⟨8, 12, c3⟩, ⟨1, 8, c1⟩] := by
      unfold finishCue
      rw [cueText_single, if_neg hc3ne]
      unfold mergeStepRev
      dsimp only
      rw [if_neg (fun hh => hne hh.symm)]
    have hraw : (cue3raw l1 l2 l3).isEmpty = false := by
      unfold cue3raw
      exact isEmpty_append_left _ (by decide)
    unfold parse_subtitles
    rw [if_neg (by rw [hraw]; decide)]
    rw [splitLines_cue3 l1 l2 l3 hnl1 hnl2 hnl3 hl3ne]
    rw [show skipHeader [cueLine1, l1, cueLine2, l2, cueLine3, l3]
        = [cueLine1, l1, cueLine2, l2, cueLine3, l3] from by
      unfold skipHeader
      dsimp only
      rw [if_neg (by decide)]]
    rw [parseLoopM_scan_cue _ _ _ _ _ hck1, ppt_v01, ppt_v04]
    rw [parseLoopM_collect_text _ _ _ _ _ _ htx1, hif1]
    rw [parseLoopM_collect_cue _ _ _ _ _ _ _ _ hck2, ppt_v04, ppt_v08, hfc1]
    rw [parseLoopM_collect_text _ _ _ _ _ _ htx2, hif2]
    rw [parseLoopM_collect_cue _ _ _ _ _ _ _ _ hck3, ppt_v08, ppt_v12, hfc2]
    rw [parseLoopM_collect_text _ _ _ _ _ _ htx3, hif3]
    rw [show parseLoopM [⟨1, 8, c1⟩] (some ((8 : ℚ), (12 : ℚ), [c3])) [] =
        finishCue [⟨1, 8, c1⟩] 8 12 [c3] from rfl, hfc3]
    rfl

/-- Witness for C6: the family theorem applied to the concrete cue texts
`hello`, `hello`, `world`. -/
theorem claim_C6_merge_rule_witness :
    parse_subtitles (cue3raw ("hello".data) ("hello".data) ("world".data))
      = [⟨1, 8, "hello".data⟩, ⟨8, 12, "world".data⟩] :=
  claim_C6_merge_rule.2 ("hello".data) ("hello".data) ("world".data)
    ("hello".data) ("world".data)
    (by decide) (by decide) (by decide) (by decide) (by decide) (by decide)
    (by decide) (by decide) (by decide) (by decide) (by decide) (by decide)
    (by decide) (by decide) (by decide) (by decide) (by decide) (by decide)

end Streamlens
